import Mathlib

/-!
Shallow embedding of `transcribe_pro.py`, a batch audio-transcription
orchestrator, together with proofs about the claims of its specification.

Modelling decisions (kept uniform throughout):
* The filesystem is a finite map from path strings to file contents,
  represented as an association list.  A stored value `some c` is a file whose
  read yields `c`; a stored value `none` is a file that exists (so
  `os.path.exists` is true) but whose read raises (e.g. a UTF-8 decode or
  permission error).  Writes always succeed and create or truncate.
* The three external ML services (speech recognition, noise reduction,
  summarization) are opaque collaborators in the source; they are modelled as
  pure oracle functions returning `Option`, where `none` models the call
  raising an exception.
* Whisper timestamps are floats rendered with a two-decimal format string;
  they are modelled as exact centisecond counts (`150` stands for `1.50`
  seconds) with a two-decimal renderer, since no claim depends on binary
  floating-point rounding.
* Python `str.split()` / `str.split(sep)` / `str.strip()` / `' '.join` /
  `os.path` helpers are reimplemented on `List Char` following the CPython
  semantics, so that the proofs can reason about them by structural induction.
* `Char.isWhitespace` / `Char.toLower` stand in for Python's `str.isspace` /
  `str.lower`; the claims do not depend on the exotic Unicode cases where the
  two differ.
-/

/-! ## Filesystem model -/

/-- A filesystem: an association list from path to content.  `some c` is a
readable file with content `c`; `none` is a file that exists but whose read
raises. -/
structure FS where
  entries : List (String × Option String)
deriving DecidableEq

/-- Reading a path: `none` if the path does not exist, `some none` if it
exists but reading raises, `some (some c)` if reading yields `c`. -/
def FS.read (fs : FS) (p : String) : Option (Option String) :=
  (fs.entries.find? (fun e => e.1 == p)).map (fun e => e.2)

/-- Models `os.path.exists`. -/
def FS.existsP (fs : FS) (p : String) : Bool :=
  (fs.read p).isSome

/-- Models `open(p, "w")` followed by a full write: creates or truncates. -/
def FS.write (fs : FS) (p c : String) : FS :=
  ⟨(p, some c) :: fs.entries.filter (fun e => !(e.1 == p))⟩

/-! ## Python string and path primitives -/

/-- Models `os.path.join(a, b)` on POSIX: an absolute `b` wins, otherwise a
separator is inserted unless `a` is empty or already ends with one.  (The
`startswith`/`endswith` single-character tests are expressed on `data`.) -/
def pjoin (a b : String) : String :=
  if b.data.head? = some '/' then b
  else if a = "" then b
  else if a.data.getLast? = some '/' then a ++ b
  else a ++ "/" ++ b

/-- Characters of the part of a path after its last `/` (models
`os.path.basename` for POSIX paths). -/
def bnChars (l : List Char) : List Char :=
  (l.reverse.takeWhile (fun c => !(c == '/'))).reverse

/-- Models `os.path.basename`. -/
def basenameStr (p : String) : String :=
  ⟨bnChars p.data⟩

/-- Characters of `os.path.splitext(name)[0]` for a separator-free `name`:
split at the last dot, except when every character before that dot is itself a
dot (the CPython leading-dots rule, e.g. `.bashrc` keeps its name). -/
def stemChars (l : List Char) : List Char :=
  if (l.reverse.takeWhile (fun c => !(c == '.'))).length = l.reverse.length then l
  else if ((l.reverse.drop ((l.reverse.takeWhile (fun c => !(c == '.'))).length + 1)).reverse).all
      (fun c => c == '.') then l
  else (l.reverse.drop ((l.reverse.takeWhile (fun c => !(c == '.'))).length + 1)).reverse

/-- Models `os.path.splitext(name)[0]`. -/
def stemStr (s : String) : String :=
  ⟨stemChars s.data⟩

/-- Models `base_name[:-8] if base_name.endswith('_cleaned') else base_name`
(transcribe_audio lines 56-57). -/
def stripCleanedSuffix (b : String) : String :=
  if "_cleaned".data.isSuffixOf b.data then ⟨b.data.take (b.data.length - 8)⟩ else b

/-- Two-sided whitespace trim on characters (models Python `str.strip()`). -/
def trimChars (l : List Char) : List Char :=
  ((l.dropWhile (fun c => c.isWhitespace)).reverse.dropWhile (fun c => c.isWhitespace)).reverse

/-- Models Python `str.strip()`. -/
def trimStr (s : String) : String :=
  ⟨trimChars s.data⟩

/-- Accumulator-based whitespace splitter: models Python `str.split()`
(split on whitespace runs, dropping empty pieces).  `acc` holds the reversed
current word. -/
def splitWsAux : List Char → List Char → List (List Char)
  | [], acc => if acc.isEmpty then [] else [acc.reverse]
  | c :: cs, acc =>
    if c.isWhitespace then
      if acc.isEmpty then splitWsAux cs [] else acc.reverse :: splitWsAux cs []
    else splitWsAux cs (c :: acc)

/-- Models Python `text.split()`. -/
def pySplit (s : String) : List String :=
  (splitWsAux s.data []).map (fun w => ⟨w⟩)

/-- Models Python `sep.join(parts)`. -/
def joinSep (sep : String) : List String → String
  | [] => ""
  | [x] => x
  | x :: y :: xs => x ++ sep ++ joinSep sep (y :: xs)

/-- Prepends a character to the first piece of a nonempty piece list. -/
def consHead (c : Char) : List (List Char) → List (List Char)
  | [] => [[c]]
  | w :: rest => (c :: w) :: rest

/-- Structural evaluator behind `splitSepCh`: the fuel bounds the number of
remaining characters, so `l.length` units always suffice. -/
def splitSepFuel (sep : List Char) : Nat → List Char → List (List Char)
  | _, [] => [[]]
  | 0, _ :: _ => [[]]
  | fuel + 1, c :: cs =>
    if sep ≠ [] ∧ sep.isPrefixOf (c :: cs) then
      [] :: splitSepFuel sep fuel ((c :: cs).drop sep.length)
    else
      consHead c (splitSepFuel sep fuel cs)

/-- Models Python `s.split(sep)` for a nonempty separator: scan left to
right, cut at each (non-overlapping) occurrence of `sep`.  The `sep ≠ []`
guard mirrors Python raising on an empty separator (never reached by the
program, whose separator is a fixed marker). -/
def splitSepCh (sep : List Char) (l : List Char) : List (List Char) :=
  splitSepFuel sep l.length l

/-- Last piece of a piece list (models indexing with `[-1]`). -/
def lastOf (ls : List (List Char)) : List Char :=
  (ls.getLast?).getD []

/-- Structural evaluator behind `chunkGroups`: the fuel bounds the number of
remaining words, so `l.length` units always suffice. -/
def chunkFuel : Nat → Nat → List String → List (List String)
  | _, _, [] => []
  | 0, _, _ :: _ => []
  | fuel + 1, n, x :: xs =>
    if n = 0 then []
    else (x :: xs).take n :: chunkFuel fuel n ((x :: xs).drop n)

/-- Grouping of a list into consecutive blocks of `n` elements (the list
comprehension `[words[i:i+n] for i in range(0, len(words), n)]`; `n = 0`
raises in Python and never occurs in the program, which uses 512). -/
def chunkGroups (n : Nat) (l : List String) : List (List String) :=
  chunkFuel l.length n l

/-! ## The program: data model and services -/

/-- One timestamped recognized-speech span, as produced by the
speech-recognition service.  `start`/`stop` are centiseconds standing for the
float second fields `seg['start']` / `seg['end']`. -/
structure Segment where
  start : Nat
  stop : Nat
  text : String
deriving DecidableEq

/-- Renders centiseconds the way `f"{x:.2f}"` renders the corresponding
seconds value (e.g. `150 ↦ "1.50"`). -/
def fmtCenti (n : Nat) : String :=
  toString (n / 100) ++ "." ++ (if n % 100 < 10 then "0" ++ toString (n % 100) else toString (n % 100))

/-- Models the f-string `f"[{seg['start']:.2f}s - {seg['end']:.2f}s] {seg['text'].strip()}"`. -/
def formatSegment (seg : Segment) : String :=
  "[" ++ fmtCenti seg.start ++ "s - " ++ fmtCenti seg.stop ++ "s] " ++ trimStr seg.text

/-- The three opaque external services.  `none` models the invocation raising
an exception.
* `transcribe`: file path and language code to full text plus segments
  (`model.transcribe`).
* `denoise`: raw audio content to denoised content (the whole
  `sf.read` / mono collapse / `nr.reduce_noise` body, applied to the content
  of the input file).
* `summarizer`: a batch of text chunks to one summary string per chunk
  (the `transformers` pipeline). -/
structure Services where
  transcribe : String → String → Option (String × List Segment)
  denoise : String → Option String
  summarizer : List String → Option (List String)

/-- The CLI configuration (positional folder plus the flags the claims
mention; the model-size choice only selects which opaque service is loaded
and is not represented). -/
structure Config where
  audio_folder : String
  output_folder : String
  language : String
  clean_noise : Bool
  summarize : Bool
deriving DecidableEq

/-! ## The program: transcription step -/

/-- Supported media extensions (`SUPPORTED_EXTENSIONS`, line 124). -/
def SUPPORTED_EXTENSIONS : List String :=
  [".mp3", ".wav", ".m4a", ".mp4", ".mov", ".avi", ".mkv"]

/-- Models `f.lower().endswith(SUPPORTED_EXTENSIONS)` (line 125): some
supported extension is a suffix of the lowercased name. -/
def hasSupportedExt (f : String) : Bool :=
  SUPPORTED_EXTENSIONS.any (fun e => e.data.isSuffixOf (f.data.map Char.toLower))

/-- The transcript marker written before the plain transcript in a
summarized artifact (lines 65 and 173). -/
def transMarker : String := "--- TRANSKRIPSI LENGKAP ---"

/-- Base name computed by `transcribe_audio` lines 55-57: stem of the
basename, with one `_cleaned` suffix stripped. -/
def baseNameOf (file_path : String) : String :=
  stripCleanedSuffix (stemStr (basenameStr file_path))

/-- The output artifact path of `transcribe_audio` line 59. -/
def outPathOf (output_folder file_path : String) : String :=
  pjoin output_folder (baseNameOf file_path ++ ".txt")

/-- Models `f.read().split("--- TRANSKRIPSI LENGKAP ---")[-1].strip()`
(line 65). -/
def reuseText (content : String) : String :=
  trimStr ⟨lastOf (splitSepCh transMarker.data content.data)⟩

/-- Result of one `transcribe_audio` call: the filesystem after the call, how
many times the speech-recognition service was invoked (0 or 1), and the
returned `(success, output_path, text)` triple. -/
structure TAOut where
  fs : FS
  calls : Nat
  success : Bool
  output_path : String
  text : String
deriving DecidableEq

/-- Models `transcribe_audio` (lines 45-85).  The whole body is wrapped in
`try/except`, so every outcome is an ordinary return value:
* artifact exists and is readable: reuse its content, never invoke the model;
* artifact exists but reading raises: the handler returns
  `(False, output_path, "")`, the model is never invoked;
* artifact missing: invoke the model; on success format the segments, write
  the artifact and return the raw text, on a raise return failure with
  nothing written. -/
def transcribe_audio (svcT : String → String → Option (String × List Segment))
    (file_path output_folder language : String) (fs : FS) : TAOut :=
  let output_file_path := outPathOf output_folder file_path
  match fs.read output_file_path with
  | some (some content) =>
    { fs := fs, calls := 0, success := true, output_path := output_file_path,
      text := reuseText content }
  | some none =>
    { fs := fs, calls := 0, success := false, output_path := output_file_path, text := "" }
  | none =>
    match svcT file_path language with
    | none =>
      { fs := fs, calls := 1, success := false, output_path := output_file_path, text := "" }
    | some (full_text, segments) =>
      { fs := fs.write output_file_path (joinSep "\n" (segments.map formatSegment)),
        calls := 1, success := true, output_path := output_file_path, text := full_text }

/-! ## The program: summarization -/

/-- The chunk list built on lines 30-31: whitespace words regrouped into
blocks of at most `max_chunk_length` words, each block rejoined with single
spaces. -/
def textChunks (text : String) (max_chunk_length : Nat) : List String :=
  (chunkGroups max_chunk_length (pySplit text)).map (joinSep " ")

/-- Models `summarize_text` (lines 14-42): chunk the text, invoke the
summarizer on the batch, join the per-chunk summaries with spaces; any raise
inside the `try` yields the fixed sentinel. -/
def summarize_text (text : String) (summarizer : List String → Option (List String))
    (max_chunk_length : Nat) : String :=
  match summarizer (textChunks text max_chunk_length) with
  | some summaries => joinSep " " summaries
  | none => "[Gagal membuat ringkasan]"

/-! ## The program: per-file pipeline and batch driver -/

/-- Path of the original input file of `filename` (line 137). -/
def origPathC (cfg : Config) (filename : String) : String :=
  pjoin cfg.audio_folder filename

/-- Path of the cleaned intermediate of `filename` (lines 120 and 144). -/
def cleanedPathC (cfg : Config) (filename : String) : String :=
  pjoin (pjoin cfg.audio_folder "cleaned") (stemStr filename ++ "_cleaned.wav")

/-- Models the noise-cleaning block (lines 142-153), returning the filesystem
and the file that will be transcribed.  If the cleaned file already exists it
is used directly; otherwise the input is read, denoised and written.  Any
raise (read failure, denoise failure) is caught and the original path is
used. -/
def denoisePhase (svcs : Services) (cfg : Config) (filename : String) (fs : FS) :
    FS × String :=
  let orig := origPathC cfg filename
  let cleaned := cleanedPathC cfg filename
  if fs.existsP cleaned then (fs, cleaned)
  else
    match fs.read orig with
    | some (some rawData) =>
      match svcs.denoise rawData with
      | some cleanedData => (fs.write cleaned cleanedData, cleaned)
      | none => (fs, orig)
    | _ => (fs, orig)

/-- Mutable state of the batch loop: the filesystem, the two counters, plus
instrumentation recording how often the speech-recognition service was
invoked, which texts were handed to `summarize_text`, and with which paths
the transcription step was entered. -/
structure BatchState where
  fs : FS
  success_count : Nat
  failure_count : Nat
  tCalls : Nat
  summarizedTexts : List String
  transcribedPaths : List String
deriving DecidableEq

/-- Models lines 158-176: after the transcription step, on success the
counter is incremented and, when summarization is on and the text nonempty,
the artifact is read back, summarized and rewritten with the summary block
prepended; on failure the failure counter is incremented.  The unreachable
`_` read-back arm mirrors the fact that in Python an unreadable
just-confirmed artifact would raise out of `main`; the lemma
`readback_always_readable` below proves the arm is never taken. -/
def afterTranscribe (svcs : Services) (cfg : Config) (st : BatchState)
    (file_to_transcribe : String) (t : TAOut) : BatchState :=
  if t.success then
    if cfg.summarize = true ∧ t.text ≠ "" then
      match t.fs.read t.output_path with
      | some (some original_content) =>
        { fs := t.fs.write t.output_path
            ("--- RINGKASAN ---\n" ++ summarize_text t.text svcs.summarizer 512 ++
              "\n\n--- TRANSKRIPSI LENGKAP ---\n" ++ original_content),
          success_count := st.success_count + 1, failure_count := st.failure_count,
          tCalls := st.tCalls + t.calls,
          summarizedTexts := st.summarizedTexts ++ [t.text],
          transcribedPaths := st.transcribedPaths ++ [file_to_transcribe] }
      | _ =>
        { fs := t.fs, success_count := st.success_count + 1,
          failure_count := st.failure_count, tCalls := st.tCalls + t.calls,
          summarizedTexts := st.summarizedTexts,
          transcribedPaths := st.transcribedPaths ++ [file_to_transcribe] }
    else
      { fs := t.fs, success_count := st.success_count + 1,
        failure_count := st.failure_count, tCalls := st.tCalls + t.calls,
        summarizedTexts := st.summarizedTexts,
        transcribedPaths := st.transcribedPaths ++ [file_to_transcribe] }
  else
    { fs := t.fs, success_count := st.success_count,
      failure_count := st.failure_count + 1, tCalls := st.tCalls + t.calls,
      summarizedTexts := st.summarizedTexts,
      transcribedPaths := st.transcribedPaths ++ [file_to_transcribe] }

/-- Models one iteration of the `for filename in audio_files` loop
(lines 136-176): optional denoise, then transcription, then the
success/failure processing of `afterTranscribe`. -/
def stepFile (svcs : Services) (cfg : Config) (st : BatchState) (f : String) : BatchState :=
  let dp := if cfg.clean_noise then denoisePhase svcs cfg f st.fs
            else (st.fs, origPathC cfg f)
  afterTranscribe svcs cfg st dp.2
    (transcribe_audio svcs.transcribe dp.2 cfg.output_folder cfg.language dp.1)

/-- Observable events of `main` before the loop, in program order. -/
inductive MainEvent where
  | loadWhisperModel
  | loadSummarizer
  | reportMissingFolder
  | reportNoFiles
deriving DecidableEq

/-- Result of one `main` run: final batch state plus the pre-loop events. -/
structure RunResult where
  state : BatchState
  events : List MainEvent
deriving DecidableEq

/-- Models `main` (lines 88-181).  `dirs` is the set of existing directories
(for the `os.path.isdir` check), `listing` models `os.listdir` of the input
folder.  Program order: the Whisper model is loaded, then the summarizer if
requested, then the input folder is validated, then files are filtered by
extension and processed sequentially.  (`os.makedirs` only touches
directories and has no observable effect in this model.) -/
def runMain (svcs : Services) (cfg : Config) (dirs : List String)
    (listing : List String) (fs : FS) : RunResult :=
  let loadEvents := [MainEvent.loadWhisperModel] ++
    (if cfg.summarize then [MainEvent.loadSummarizer] else [])
  if !(dirs.contains cfg.audio_folder) then
    { state := ⟨fs, 0, 0, 0, [], []⟩, events := loadEvents ++ [MainEvent.reportMissingFolder] }
  else
    let audio_files := listing.filter hasSupportedExt
    if audio_files.isEmpty then
      { state := ⟨fs, 0, 0, 0, [], []⟩, events := loadEvents ++ [MainEvent.reportNoFiles] }
    else
      { state := audio_files.foldl (stepFile svcs cfg) ⟨fs, 0, 0, 0, [], []⟩,
        events := loadEvents }

/-- A name produced by `os.listdir` and retained by the extension filter:
separator-free with a supported media extension. -/
def GoodName (f : String) : Prop :=
  '/' ∉ f.data ∧ hasSupportedExt f = true

/-- The artifact path written when `f` is transcribed from its original
location. -/
def aOrigP (cfg : Config) (f : String) : String :=
  pjoin cfg.output_folder (stripCleanedSuffix (stemStr f) ++ ".txt")

/-- The artifact path written when `f` is transcribed from its cleaned
intermediate. -/
def aCleanP (cfg : Config) (f : String) : String :=
  pjoin cfg.output_folder (stemStr f ++ ".txt")

/-- Denoise raising at any point: the input file is missing, unreadable, or
the denoise service raises on its content. -/
def denoiseRaises (svcs : Services) (cfg : Config) (f : String) (fs : FS) : Prop :=
  match fs.read (origPathC cfg f) with
  | some (some d) => svcs.denoise d = none
  | _ => True

/-- Key per-file fact maintained about cleaned intermediates: whenever the
cleaned file of `f` exists, either the artifact it would produce exists, or
the speech service raises on the cleaned path. -/
def CFactC (svcs : Services) (cfg : Config) (f : String) (fs : FS) : Prop :=
  fs.existsP (cleanedPathC cfg f) = true →
    (fs.existsP (aCleanP cfg f) = true ∨
      svcs.transcribe (cleanedPathC cfg f) cfg.language = none)

/-- Key per-file fact established by processing `f` once: in denoise mode the
cleaned file exists or denoising deterministically fails while the
original-path artifact exists or its transcription fails; without denoise
only the latter. -/
def AFC (svcs : Services) (cfg : Config) (f : String) (fs : FS) : Prop :=
  (cfg.clean_noise = true →
    (fs.existsP (cleanedPathC cfg f) = true ∨
      (denoiseRaises svcs cfg f fs ∧
        (fs.existsP (aOrigP cfg f) = true ∨
          svcs.transcribe (origPathC cfg f) cfg.language = none)))) ∧
  (cfg.clean_noise = false →
    (fs.existsP (aOrigP cfg f) = true ∨
      svcs.transcribe (origPathC cfg f) cfg.language = none))

/-- The separator occurs somewhere in the list. -/
def occursSeq (sep l : List Char) : Prop :=
  ∃ a b, l = a ++ sep ++ b

/-- Modelled from the spec wording of claim C9: the text after the LANGUAGE
of "the LAST occurrence of the marker" read literally, i.e. everything after
the maximal index at which the marker matches (the whole text when it never
matches). -/
def specAfterLastOccurrence (sep l : List Char) : List Char :=
  match ((List.range (l.length + 1)).filter (fun i => sep.isPrefixOf (l.drop i))).getLast? with
  | none => l
  | some i => l.drop (i + sep.length)

/-! ## Concrete demonstration inputs

Stub services and configurations used to instantiate the theorems on
concrete data, mirroring the stub-service tests the spec describes. -/

/-- The spec's stub segments `{0.00,1.50,"hello"}` and `{1.50,3.00,"world"}`
(the second with the leading space Whisper emits, removed by `strip()`). -/
def demoSeg1 : Segment := ⟨0, 150, "hello"⟩

def demoSeg2 : Segment := ⟨150, 300, " world"⟩

/-- Stub services: the speech service recognizes exactly the file
`a/x.mp3`, the denoise service always raises, the summarizer returns the
single summary `"S1"` for any batch. -/
def demoSvcs : Services :=
  { transcribe := fun p _ =>
      if p = "a/x.mp3" then some ("hello world", [demoSeg1, demoSeg2]) else none
    denoise := fun _ => none
    summarizer := fun _ => some ["S1"] }

def demoCfgSum : Config := ⟨"a", "o", "id", false, true⟩

def demoCfgNoSum : Config := ⟨"a", "o", "id", false, false⟩

def demoCfgClean : Config := ⟨"a", "o", "id", true, false⟩

/-- A filesystem already holding the plain artifact of `x.mp3`. -/
def demoFsArtifact : FS :=
  ⟨[("o/x.txt", some "[0.00s - 1.50s] hello\n[1.50s - 3.00s] world")]⟩

/-- A filesystem where the artifact of `x.mp3` exists but reading it raises. -/
def demoFsRaise : FS := ⟨[("o/x.txt", none)]⟩

/-- An artifact content on which the transcript marker overlaps itself: the
marker occurs at offsets 0 and 24. -/
def overlapContent : String :=
  "--- TRANSKRIPSI LENGKAP --- TRANSKRIPSI LENGKAP ---"

/-- A filesystem holding the self-overlapping artifact content for `x.mp3`. -/
def demoFsOverlap : FS := ⟨[("o/x.txt", some overlapContent)]⟩

/-! ## Basic lemmas: filesystem -/

theorem String.eq_of_data_eq {a b : String} (h : a.data = b.data) : a = b := by
  cases a; cases b; exact congrArg String.mk h

theorem find?_filter_ne (l : List (String × Option String)) (p q : String) (h : q ≠ p) :
    (l.filter (fun e => !(e.1 == p))).find? (fun e => e.1 == q) =
      l.find? (fun e => e.1 == q) := by
  induction l with
  | nil => rfl
  | cons e es ih =>
    by_cases hp : e.1 = p
    · have hq : ¬ ((e.1 == q) = true) := by
        simp only [beq_iff_eq]
        exact fun hh => h (hh.symm.trans hp)
      rw [List.filter_cons_of_neg (by simp [hp])]
      have hrw : (e :: es).find? (fun x => x.1 == q) = es.find? (fun x => x.1 == q) :=
        List.find?_cons_of_neg es hq
      rw [hrw, ih]
    · rw [List.filter_cons_of_pos (by simp [hp])]
      by_cases hq : e.1 = q
      · have hrw1 : (e :: es.filter (fun x => !(x.1 == p))).find? (fun x => x.1 == q) = some e :=
          List.find?_cons_of_pos _ (by simpa using hq)
        have hrw2 : (e :: es).find? (fun x => x.1 == q) = some e :=
          List.find?_cons_of_pos _ (by simpa using hq)
        rw [hrw1, hrw2]
      · have hrw1 : (e :: es.filter (fun x => !(x.1 == p))).find? (fun x => x.1 == q) =
            (es.filter (fun x => !(x.1 == p))).find? (fun x => x.1 == q) :=
          List.find?_cons_of_neg _ (by simpa using hq)
        have hrw2 : (e :: es).find? (fun x => x.1 == q) = es.find? (fun x => x.1 == q) :=
          List.find?_cons_of_neg _ (by simpa using hq)
        rw [hrw1, hrw2, ih]

theorem FS.read_write_self (fs : FS) (p c : String) :
    (fs.write p c).read p = some (some c) := by
  simp [FS.read, FS.write, List.find?_cons_of_pos]

theorem FS.read_write_ne (fs : FS) {p q : String} (c : String) (h : q ≠ p) :
    (fs.write p c).read q = fs.read q := by
  simp only [FS.read, FS.write]
  have hrw : ((p, some c) :: fs.entries.filter (fun x => !(x.1 == p))).find? (fun x => x.1 == q) =
      (fs.entries.filter (fun x => !(x.1 == p))).find? (fun x => x.1 == q) :=
    List.find?_cons_of_neg _ (by simp only [beq_iff_eq]; exact fun hh => h hh.symm)
  rw [hrw, find?_filter_ne _ _ _ h]

theorem FS.existsP_write_mono (fs : FS) {q : String} (p c : String)
    (h : fs.existsP q = true) : (fs.write p c).existsP q = true := by
  by_cases hq : q = p
  · subst hq; simp [FS.existsP, FS.read_write_self]
  · simpa [FS.existsP, FS.read_write_ne fs c hq] using h

theorem FS.existsP_of_read_some (fs : FS) {p : String} {v : Option String}
    (h : fs.read p = some v) : fs.existsP p = true := by
  simp [FS.existsP, h]

/-! ## Basic lemmas: characters, paths -/

theorem takeWhile_append_all {p : Char → Bool} {l1 : List Char} (l2 : List Char)
    (h : ∀ x ∈ l1, p x = true) :
    (l1 ++ l2).takeWhile p = l1 ++ l2.takeWhile p := by
  induction l1 with
  | nil => simp
  | cons x xs ih =>
    have hx : p x = true := h x (List.mem_cons_self x xs)
    have hxs : ∀ y ∈ xs, p y = true := fun y hy => h y (List.mem_cons_of_mem x hy)
    simp only [List.cons_append, List.takeWhile_cons_of_pos hx, ih hxs]

theorem mem_stemChars {l : List Char} {x : Char} (h : x ∈ stemChars l) : x ∈ l := by
  unfold stemChars at h
  split at h
  · exact h
  · split at h
    · exact h
    · have := List.mem_reverse.mp h
      exact List.mem_reverse.mp (List.mem_of_mem_drop this)

theorem mem_stripCleaned {b : String} {x : Char}
    (h : x ∈ (stripCleanedSuffix b).data) : x ∈ b.data := by
  unfold stripCleanedSuffix at h
  split at h
  · exact List.mem_of_mem_take h
  · exact h

theorem pjoin_suffix (a b : String) : b.data <:+ (pjoin a b).data := by
  unfold pjoin
  split
  · exact List.suffix_rfl
  · split
    · exact List.suffix_rfl
    · split
      · rw [String.data_append]; exact List.suffix_append _ _
      · rw [String.data_append]
        exact List.suffix_append _ _

theorem pjoin_ne_empty (a b : String) (hb : b ≠ "") : pjoin a b ≠ "" := by
  intro h
  have hd : ("" : String).data = [] := rfl
  have hsuf : b.data <:+ ([] : List Char) := by
    have := pjoin_suffix a b
    rwa [h, hd] at this
  have hlen := hsuf.length_le
  simp only [List.length_nil, Nat.le_zero] at hlen
  exact hb (String.eq_of_data_eq (List.eq_nil_of_length_eq_zero hlen))

theorem pjoin_chars (a b : String) (hb : b ≠ "") (hnb : '/' ∉ b.data) :
    ∃ p, (pjoin a b).data = p ++ b.data ∧ (p = [] ∨ p.getLast? = some '/') ∧
      ((a = "" ∧ p = []) ∨ (a ≠ "" ∧ (p = a.data ∨ p = a.data ++ ['/']))) := by
  unfold pjoin
  have hhead : ¬ (b.data.head? = some '/') := by
    intro h
    exact hnb (List.mem_of_mem_head? (by simp [h]))
  rw [if_neg hhead]
  by_cases ha : a = ""
  · rw [if_pos ha]
    exact ⟨[], by simp, Or.inl rfl, Or.inl ⟨ha, rfl⟩⟩
  · rw [if_neg ha]
    by_cases hsl : a.data.getLast? = some '/'
    · rw [if_pos hsl]
      exact ⟨a.data, String.data_append a b, Or.inr hsl, Or.inr ⟨ha, Or.inl rfl⟩⟩
    · rw [if_neg hsl]
      refine ⟨a.data ++ ['/'], ?_, Or.inr (by simp), Or.inr ⟨ha, Or.inr rfl⟩⟩
      rw [String.data_append, String.data_append]

theorem bnChars_append {pre w : List Char} (hw : '/' ∉ w)
    (hp : pre = [] ∨ pre.getLast? = some '/') : bnChars (pre ++ w) = w := by
  unfold bnChars
  have hall : ∀ x ∈ w.reverse, (!(x == '/')) = true := by
    intro x hx
    have : x ∈ w := List.mem_reverse.mp hx
    simp only [Bool.not_eq_true']
    exact beq_eq_false_iff_ne.mpr fun hh => hw (hh ▸ this)
  rcases hp with hp | hp
  · subst hp
    simp only [List.nil_append]
    have h1 : (w.reverse ++ []).takeWhile (fun c => !(c == '/')) =
        w.reverse ++ ([] : List Char).takeWhile (fun c => !(c == '/')) :=
      takeWhile_append_all [] hall
    simp only [List.append_nil, List.takeWhile_nil] at h1
    rw [h1, List.reverse_reverse]
  · rcases List.exists_cons_of_ne_nil (l := pre.reverse) (by
      intro hnil
      rw [← List.head?_reverse, hnil] at hp
      exact (Option.some_ne_none '/' hp.symm).elim) with ⟨c, t, hct⟩
    have hc : c = '/' := by
      have h2 := hp
      rw [← List.head?_reverse, hct] at h2
      simpa using h2
    rw [List.reverse_append, hct, hc]
    rw [takeWhile_append_all _ hall]
    rw [List.takeWhile_cons_of_neg (by simp)]
    simp

theorem all_dots_false_of_mem {l : List Char} {x : Char} (hx : x ∈ l)
    (hpx : (x == '.') = false) : (l.all fun c => c == '.') = false := by
  by_cases h : (l.all fun c => c == '.') = true
  · exact absurd (List.all_eq_true.mp h x hx) (by simp [hpx])
  · simpa using h

theorem stemChars_cleanedwav (s : List Char) :
    stemChars (s ++ "_cleaned.wav".data) = s ++ "_cleaned".data := by
  have hrev : (s ++ "_cleaned.wav".data).reverse =
      'v' :: 'a' :: 'w' :: '.' :: (['d','e','n','a','e','l','c','_'] ++ s.reverse) := by
    rw [List.reverse_append]; rfl
  have htw : (s ++ "_cleaned.wav".data).reverse.takeWhile (fun c => !(c == '.')) =
      ['v','a','w'] := by
    rw [hrev]
    rw [List.takeWhile_cons_of_pos (by decide), List.takeWhile_cons_of_pos (by decide),
      List.takeWhile_cons_of_pos (by decide), List.takeWhile_cons_of_neg (by decide)]
  have hlen : (s ++ "_cleaned.wav".data).reverse.length = s.length + 12 := by
    simp [List.length_reverse, List.length_append]
  have hdrop : (s ++ "_cleaned.wav".data).reverse.drop 4 =
      ['d','e','n','a','e','l','c','_'] ++ s.reverse := by
    rw [hrev]; rfl
  have hpre : ((s ++ "_cleaned.wav".data).reverse.drop 4).reverse = s ++ "_cleaned".data := by
    rw [hdrop, List.reverse_append, List.reverse_reverse]; rfl
  unfold stemChars
  rw [htw]
  have hcond : ¬ ((['v','a','w'] : List Char).length = (s ++ "_cleaned.wav".data).reverse.length) := by
    rw [hlen]; simp
  rw [if_neg hcond]
  have h4 : (['v','a','w'] : List Char).length + 1 = 4 := rfl
  rw [h4, hpre]
  have hdots : ((s ++ "_cleaned".data).all fun c => c == '.') = false :=
    all_dots_false_of_mem (x := '_') (by simp) (by decide)
  rw [hdots]
  simp

theorem stripCleaned_append (s : List Char) :
    stripCleanedSuffix ⟨s ++ "_cleaned".data⟩ = ⟨s⟩ := by
  unfold stripCleanedSuffix
  have hs : ("_cleaned".data).isSuffixOf ((⟨s ++ "_cleaned".data⟩ : String).data) = true :=
    (List.isSuffixOf_iff_suffix).mpr (List.suffix_append _ _)
  rw [if_pos hs]
  have hl : ((⟨s ++ "_cleaned".data⟩ : String).data).length - 8 = s.length := by
    show (s ++ "_cleaned".data).length - 8 = s.length
    simp [List.length_append]
  rw [hl]
  show (⟨(s ++ "_cleaned".data).take s.length⟩ : String) = ⟨s⟩
  rw [List.take_left]

/-! ## Extension and path disjointness lemmas -/

theorem hasSupportedExt_spec {f : String} (h : hasSupportedExt f = true) :
    ∃ e, e ∈ SUPPORTED_EXTENSIONS ∧ e.data <:+ f.data.map Char.toLower ∧ e.data.length = 4 := by
  unfold hasSupportedExt at h
  rcases List.any_eq_true.mp h with ⟨e, he, hsuf⟩
  refine ⟨e, he, (List.isSuffixOf_iff_suffix).mp hsuf, ?_⟩
  fin_cases he <;> rfl

theorem len4_of_supported {f : String} (h : hasSupportedExt f = true) : 4 ≤ f.data.length := by
  obtain ⟨e, _, hsuf, hlen⟩ := hasSupportedExt_spec h
  have := hsuf.length_le
  rw [hlen, List.length_map] at this
  exact this

theorem ne_empty_of_supported {f : String} (h : hasSupportedExt f = true) : f ≠ "" := by
  intro he
  have := len4_of_supported h
  rw [he] at this
  simp at this

theorem suffix_of_suffix_le {l l1 l2 : List Char} (h1 : l1 <:+ l) (h2 : l2 <:+ l)
    (h : l1.length ≤ l2.length) : l1 <:+ l2 := by
  have h1r : l1.reverse <+: l.reverse := List.reverse_prefix.mpr h1
  have h2r : l2.reverse <+: l.reverse := List.reverse_prefix.mpr h2
  have := List.prefix_of_prefix_length_le h1r h2r (by simpa using h)
  have h3 : l1.reverse.reverse <:+ l2.reverse.reverse := by
    rw [← List.reverse_prefix]
    simpa using this
  simpa using h3

theorem suffix_eq_of_length {l l1 l2 : List Char} (h1 : l1 <:+ l) (h2 : l2 <:+ l)
    (h : l1.length = l2.length) : l1 = l2 :=
  (suffix_of_suffix_le h1 h2 h.le).eq_of_length h

theorem not_txt_suffix {f : String} (h : hasSupportedExt f = true) :
    ¬ (".txt".data <:+ f.data) := by
  intro hs
  obtain ⟨e, he, hsuf, hlen⟩ := hasSupportedExt_spec h
  have hs2 : (".txt".data.map Char.toLower) <:+ f.data.map Char.toLower := hs.map _
  have hlow : (".txt".data.map Char.toLower) = ".txt".data := by decide
  rw [hlow] at hs2
  have heq : e.data = ".txt".data := suffix_eq_of_length hsuf hs2 (by rw [hlen]; rfl)
  fin_cases he <;> exact absurd heq (by decide)

theorem orig_ne_txtpath (cfg : Config) (f B : String) (hf : GoodName f) :
    origPathC cfg f ≠ pjoin cfg.output_folder (B ++ ".txt") := by
  intro h
  have hdata := congrArg String.data h
  have h1 : ".txt".data <:+ (B ++ ".txt").data := by
    rw [String.data_append]; exact List.suffix_append _ _
  have h3 : ".txt".data <:+ (origPathC cfg f).data := by
    rw [hdata]; exact h1.trans (pjoin_suffix _ _)
  have hfsuf : f.data <:+ (origPathC cfg f).data := pjoin_suffix _ _
  have h5 : ".txt".data <:+ f.data :=
    suffix_of_suffix_le h3 hfsuf (len4_of_supported hf.2)
  exact not_txt_suffix hf.2 h5

theorem cleaned_ne_txtpath (cfg : Config) (f B : String) :
    cleanedPathC cfg f ≠ pjoin cfg.output_folder (B ++ ".txt") := by
  intro h
  have hdata := congrArg String.data h
  have hwav : ".wav".data <:+ (cleanedPathC cfg f).data := by
    have h1 : ".wav".data <:+ (stemStr f ++ "_cleaned.wav").data := by
      rw [String.data_append]
      exact ((List.isSuffixOf_iff_suffix).mp (by decide :
        (".wav".data).isSuffixOf ("_cleaned.wav".data) = true)).trans (List.suffix_append _ _)
    exact h1.trans (pjoin_suffix _ _)
  have htxt : ".txt".data <:+ (cleanedPathC cfg f).data := by
    rw [hdata]
    have h1 : ".txt".data <:+ (B ++ ".txt").data := by
      rw [String.data_append]; exact List.suffix_append _ _
    exact h1.trans (pjoin_suffix _ _)
  have := suffix_eq_of_length hwav htxt rfl
  exact absurd this (by decide)

theorem noslash_cleanedname (f : String) (hf : '/' ∉ f.data) :
    '/' ∉ (stemStr f ++ "_cleaned.wav").data := by
  rw [String.data_append]
  intro h
  rcases List.mem_append.mp h with h | h
  · exact hf (mem_stemChars h)
  · exact absurd h (by decide)

theorem cleanedname_ne_empty (f : String) : stemStr f ++ "_cleaned.wav" ≠ "" := by
  intro h
  have hd := congrArg String.data h
  rw [String.data_append] at hd
  have hl := congrArg List.length hd
  simp [List.length_append] at hl

theorem cleanedPath_chars (cfg : Config) (f : String) (hf : '/' ∉ f.data) :
    ∃ p0, (cleanedPathC cfg f).data =
        (p0 ++ "cleaned".data ++ ['/']) ++ (stemStr f ++ "_cleaned.wav").data ∧
      ((cfg.audio_folder = "" ∧ p0 = []) ∨
        (cfg.audio_folder ≠ "" ∧
          (p0 = cfg.audio_folder.data ∨ p0 = cfg.audio_folder.data ++ ['/']))) := by
  obtain ⟨p0, e0, _, t0⟩ :=
    pjoin_chars cfg.audio_folder "cleaned" (by decide) (by decide)
  have hcfne : pjoin cfg.audio_folder "cleaned" ≠ "" := pjoin_ne_empty _ _ (by decide)
  obtain ⟨p2, e2, d2, t2⟩ :=
    pjoin_chars (pjoin cfg.audio_folder "cleaned") (stemStr f ++ "_cleaned.wav")
      (cleanedname_ne_empty f) (noslash_cleanedname f hf)
  have hlast : (pjoin cfg.audio_folder "cleaned").data.getLast? = some 'd' := by
    rw [e0, List.getLast?_append]
    rfl
  have hp2 : p2 = (pjoin cfg.audio_folder "cleaned").data ++ ['/'] := by
    rcases t2 with ⟨hb, _⟩ | ⟨hb, hp⟩
    · exact absurd hb hcfne
    · rcases hp with hp | hp
      · exfalso
        rcases d2 with hd | hd
        · rw [hp] at hd
          have : pjoin cfg.audio_folder "cleaned" = "" := String.eq_of_data_eq (by simp [hd])
          exact hcfne this
        · rw [hp, hlast] at hd
          simp at hd
      · exact hp
  refine ⟨p0, ?_, t0⟩
  show (cleanedPathC cfg f).data = _
  unfold cleanedPathC
  rw [e2, hp2, e0]

theorem orig_ne_cleaned (cfg : Config) {f g : String} (hf : '/' ∉ f.data) (hfne : f ≠ "")
    (hg : '/' ∉ g.data) : origPathC cfg f ≠ cleanedPathC cfg g := by
  intro h
  obtain ⟨p1, e1, d1, t1⟩ := pjoin_chars cfg.audio_folder f hfne hf
  obtain ⟨p0, e2, t0⟩ := cleanedPath_chars cfg g hg
  have hdata := congrArg String.data h
  rw [show (origPathC cfg f).data = p1 ++ f.data from e1, e2] at hdata
  have hbn1 : bnChars (p1 ++ f.data) = f.data := bnChars_append hf d1
  have hbn2 : bnChars ((p0 ++ "cleaned".data ++ ['/']) ++ (stemStr g ++ "_cleaned.wav").data) =
      (stemStr g ++ "_cleaned.wav").data :=
    bnChars_append (noslash_cleanedname g hg) (Or.inr (by simp))
  have hfeq : f.data = (stemStr g ++ "_cleaned.wav").data := by
    rw [← hbn1, ← hbn2, hdata]
  rw [hfeq] at hdata
  have hp : p1 = p0 ++ "cleaned".data ++ ['/'] := List.append_cancel_right hdata
  have hlen : p1.length = p0.length + 8 := by
    rw [hp]; simp [List.length_append]
  rcases t1 with ⟨ha, hp1⟩ | ⟨ha, hp1⟩
  · rcases t0 with ⟨_, hp0⟩ | ⟨hb, _⟩
    · rw [hp1, hp0] at hlen; simp at hlen
    · exact hb ha
  · rcases t0 with ⟨hb, _⟩ | ⟨_, hp0⟩
    · exact ha hb
    · have h1 : p1.length = cfg.audio_folder.data.length ∨
          p1.length = cfg.audio_folder.data.length + 1 := by
        rcases hp1 with hh | hh
        · left; rw [hh]
        · right; rw [hh]; simp [List.length_append]
      have h0 : p0.length = cfg.audio_folder.data.length ∨
          p0.length = cfg.audio_folder.data.length + 1 := by
        rcases hp0 with hh | hh
        · left; rw [hh]
        · right; rw [hh]; simp [List.length_append]
      omega

theorem cleanedPath_inj (cfg : Config) {f g : String} (hf : '/' ∉ f.data) (hg : '/' ∉ g.data)
    (h : cleanedPathC cfg f = cleanedPathC cfg g) : stemStr f = stemStr g := by
  have hdata := congrArg String.data h
  have hb1 : bnChars (cleanedPathC cfg f).data = (stemStr f ++ "_cleaned.wav").data := by
    obtain ⟨p0, e1, _⟩ := cleanedPath_chars cfg f hf
    rw [e1]; exact bnChars_append (noslash_cleanedname f hf) (Or.inr (by simp))
  have hb2 : bnChars (cleanedPathC cfg g).data = (stemStr g ++ "_cleaned.wav").data := by
    obtain ⟨p0, e1, _⟩ := cleanedPath_chars cfg g hg
    rw [e1]; exact bnChars_append (noslash_cleanedname g hg) (Or.inr (by simp))
  have hname : (stemStr f ++ "_cleaned.wav").data = (stemStr g ++ "_cleaned.wav").data := by
    rw [← hb1, ← hb2, hdata]
  rw [String.data_append, String.data_append] at hname
  exact String.eq_of_data_eq (List.append_cancel_right hname)

theorem outPath_orig (cfg : Config) (f : String) (hf : '/' ∉ f.data) (hne : f ≠ "") :
    outPathOf cfg.output_folder (origPathC cfg f) = aOrigP cfg f := by
  unfold outPathOf baseNameOf aOrigP
  have hbn : basenameStr (origPathC cfg f) = f := by
    apply String.eq_of_data_eq
    obtain ⟨p1, e1, d1, _⟩ := pjoin_chars cfg.audio_folder f hne hf
    show bnChars (origPathC cfg f).data = f.data
    rw [show (origPathC cfg f).data = p1 ++ f.data from e1]
    exact bnChars_append hf d1
  rw [hbn]

theorem outPath_cleaned (cfg : Config) (f : String) (hf : '/' ∉ f.data) :
    outPathOf cfg.output_folder (cleanedPathC cfg f) = aCleanP cfg f := by
  unfold outPathOf baseNameOf aCleanP
  have hbn : basenameStr (cleanedPathC cfg f) = stemStr f ++ "_cleaned.wav" := by
    apply String.eq_of_data_eq
    show bnChars (cleanedPathC cfg f).data = _
    obtain ⟨p0, e1, _⟩ := cleanedPath_chars cfg f hf
    rw [e1]
    exact bnChars_append (noslash_cleanedname f hf) (Or.inr (by simp))
  rw [hbn]
  have hstem : stemStr (stemStr f ++ "_cleaned.wav") = stemStr f ++ "_cleaned" := by
    apply String.eq_of_data_eq
    show stemChars (stemStr f ++ "_cleaned.wav").data = (stemStr f ++ "_cleaned").data
    rw [String.data_append, String.data_append]
    exact stemChars_cleanedwav (stemStr f).data
  rw [hstem]
  have hstrip : stripCleanedSuffix (stemStr f ++ "_cleaned") = stemStr f := by
    have hth := stripCleaned_append (stemStr f).data
    have he : (⟨(stemStr f).data ++ "_cleaned".data⟩ : String) = stemStr f ++ "_cleaned" := by
      apply String.eq_of_data_eq; rw [String.data_append]
    rw [he] at hth
    exact hth
  rw [hstrip]

/-! ## Case lemmas for the transcription and denoise phases -/

theorem TA_reuse {svcT : String → String → Option (String × List Segment)}
    {fp outf lang : String} {fs : FS} {content : String}
    (h : fs.read (outPathOf outf fp) = some (some content)) :
    transcribe_audio svcT fp outf lang fs =
      ⟨fs, 0, true, outPathOf outf fp, reuseText content⟩ := by
  unfold transcribe_audio
  dsimp only
  rw [h]

theorem TA_unreadable {svcT : String → String → Option (String × List Segment)}
    {fp outf lang : String} {fs : FS}
    (h : fs.read (outPathOf outf fp) = some none) :
    transcribe_audio svcT fp outf lang fs = ⟨fs, 0, false, outPathOf outf fp, ""⟩ := by
  unfold transcribe_audio
  dsimp only
  rw [h]

theorem TA_svc_fail {svcT : String → String → Option (String × List Segment)}
    {fp outf lang : String} {fs : FS}
    (h1 : fs.read (outPathOf outf fp) = none) (h2 : svcT fp lang = none) :
    transcribe_audio svcT fp outf lang fs = ⟨fs, 1, false, outPathOf outf fp, ""⟩ := by
  unfold transcribe_audio
  dsimp only
  rw [h1, h2]

theorem TA_fresh {svcT : String → String → Option (String × List Segment)}
    {fp outf lang : String} {fs : FS} {T : String} {segs : List Segment}
    (h1 : fs.read (outPathOf outf fp) = none) (h2 : svcT fp lang = some (T, segs)) :
    transcribe_audio svcT fp outf lang fs =
      ⟨fs.write (outPathOf outf fp) (joinSep "\n" (segs.map formatSegment)),
        1, true, outPathOf outf fp, T⟩ := by
  unfold transcribe_audio
  dsimp only
  rw [h1, h2]

theorem TA_outpath (svcT : String → String → Option (String × List Segment))
    (fp outf lang : String) (fs : FS) :
    (transcribe_audio svcT fp outf lang fs).output_path = outPathOf outf fp := by
  unfold transcribe_audio
  dsimp only
  rcases hread : fs.read (outPathOf outf fp) with - | mv
  · rcases hsvc : svcT fp lang with - | ⟨T, segs⟩
    · rfl
    · rfl
  · rcases mv with - | c
    · rfl
    · rfl

theorem TA_read_pres (svcT : String → String → Option (String × List Segment))
    (fp outf lang : String) (fs : FS) {q : String} (hq : q ≠ outPathOf outf fp) :
    (transcribe_audio svcT fp outf lang fs).fs.read q = fs.read q := by
  unfold transcribe_audio
  dsimp only
  rcases hread : fs.read (outPathOf outf fp) with - | mv
  · rcases hsvc : svcT fp lang with - | ⟨T, segs⟩
    · rfl
    · exact FS.read_write_ne fs _ hq
  · rcases mv with - | c
    · rfl
    · rfl

theorem TA_calls_zero_of_exists (svcT : String → String → Option (String × List Segment))
    (fp outf lang : String) (fs : FS)
    (h : fs.existsP (outPathOf outf fp) = true) :
    (transcribe_audio svcT fp outf lang fs).calls = 0 := by
  unfold transcribe_audio
  dsimp only
  rcases hread : fs.read (outPathOf outf fp) with - | mv
  · rw [FS.existsP, hread] at h
    simp at h
  · rcases mv with - | c
    · rfl
    · rfl

/-- When the artifact was absent and transcription succeeded, or the
artifact was present and readable, the artifact is readable afterwards; this
is why the read-back in `main` (line 163) can never raise. -/
theorem readback_always_readable (svcT : String → String → Option (String × List Segment))
    (fp outf lang : String) (fs : FS)
    (h : (transcribe_audio svcT fp outf lang fs).success = true) :
    ∃ c, (transcribe_audio svcT fp outf lang fs).fs.read
      ((transcribe_audio svcT fp outf lang fs).output_path) = some (some c) := by
  unfold transcribe_audio at h ⊢
  dsimp only at h ⊢
  rcases hread : fs.read (outPathOf outf fp) with - | mv
  · rcases hsvc : svcT fp lang with - | ⟨T, segs⟩
    · rw [hread, hsvc] at h
      simp at h
    · exact ⟨_, FS.read_write_self _ _ _⟩
  · rcases mv with - | c
    · rw [hread] at h
      simp at h
    · exact ⟨c, hread⟩

theorem DP_cleaned_exists {svcs : Services} {cfg : Config} {f : String} {fs : FS}
    (h : fs.existsP (cleanedPathC cfg f) = true) :
    denoisePhase svcs cfg f fs = (fs, cleanedPathC cfg f) := by
  unfold denoisePhase
  dsimp only
  rw [h]
  rfl

theorem DP_fail {svcs : Services} {cfg : Config} {f : String} {fs : FS}
    (hne : fs.existsP (cleanedPathC cfg f) = false)
    (hf : denoiseRaises svcs cfg f fs) :
    denoisePhase svcs cfg f fs = (fs, origPathC cfg f) := by
  unfold denoisePhase
  dsimp only
  rw [hne]
  simp only [Bool.false_eq_true, if_false]
  unfold denoiseRaises at hf
  rcases hread : fs.read (origPathC cfg f) with - | mv
  · rfl
  · rcases mv with - | d
    · rfl
    · rw [hread] at hf
      dsimp only
      rw [hf]

theorem DP_success {svcs : Services} {cfg : Config} {f : String} {fs : FS} {d cd : String}
    (hne : fs.existsP (cleanedPathC cfg f) = false)
    (hr : fs.read (origPathC cfg f) = some (some d))
    (hd : svcs.denoise d = some cd) :
    denoisePhase svcs cfg f fs = (fs.write (cleanedPathC cfg f) cd, cleanedPathC cfg f) := by
  unfold denoisePhase
  dsimp only
  rw [hne]
  simp only [Bool.false_eq_true, if_false]
  rw [hr]
  dsimp only
  rw [hd]

theorem DP_read_pres (svcs : Services) (cfg : Config) (f : String) (fs : FS) {q : String}
    (hq : q ≠ cleanedPathC cfg f) :
    (denoisePhase svcs cfg f fs).1.read q = fs.read q := by
  unfold denoisePhase
  dsimp only
  by_cases he : fs.existsP (cleanedPathC cfg f) = true
  · rw [he]
    rfl
  · rw [Bool.not_eq_true] at he
    rw [he]
    simp only [Bool.false_eq_true, if_false]
    rcases hread : fs.read (origPathC cfg f) with - | mv
    · rfl
    · rcases mv with - | d
      · rfl
      · dsimp only
        rcases hd : svcs.denoise d with - | cd
        · rfl
        · exact FS.read_write_ne fs _ hq

theorem DP_path_cases (svcs : Services) (cfg : Config) (f : String) (fs : FS) :
    (denoisePhase svcs cfg f fs).2 = cleanedPathC cfg f ∨
      (denoisePhase svcs cfg f fs).2 = origPathC cfg f := by
  unfold denoisePhase
  dsimp only
  by_cases he : fs.existsP (cleanedPathC cfg f) = true
  · rw [he]
    exact Or.inl rfl
  · rw [Bool.not_eq_true] at he
    rw [he]
    simp only [Bool.false_eq_true, if_false]
    rcases hread : fs.read (origPathC cfg f) with - | mv
    · exact Or.inr rfl
    · rcases mv with - | d
      · exact Or.inr rfl
      · dsimp only
        rcases hd : svcs.denoise d with - | cd
        · exact Or.inr rfl
        · exact Or.inl rfl

/-! ## Case lemmas for the per-file step -/

theorem AT_fail {svcs : Services} {cfg : Config} {st : BatchState} {p : String} {t : TAOut}
    (h : t.success = false) :
    afterTranscribe svcs cfg st p t =
      { st with
        fs := t.fs
        failure_count := st.failure_count + 1
        tCalls := st.tCalls + t.calls
        transcribedPaths := st.transcribedPaths ++ [p] } := by
  unfold afterTranscribe
  rw [h]
  rfl

theorem AT_success_nosum {svcs : Services} {cfg : Config} {st : BatchState} {p : String}
    {t : TAOut} (h : t.success = true) (h2 : ¬ (cfg.summarize = true ∧ t.text ≠ "")) :
    afterTranscribe svcs cfg st p t =
      { st with
        fs := t.fs
        success_count := st.success_count + 1
        tCalls := st.tCalls + t.calls
        transcribedPaths := st.transcribedPaths ++ [p] } := by
  unfold afterTranscribe
  rw [h, if_pos rfl, if_neg h2]

theorem AT_success_sum {svcs : Services} {cfg : Config} {st : BatchState} {p : String}
    {t : TAOut} {C : String} (h : t.success = true) (hsum : cfg.summarize = true)
    (htext : t.text ≠ "") (hc : t.fs.read t.output_path = some (some C)) :
    afterTranscribe svcs cfg st p t =
      { st with
        fs := t.fs.write t.output_path
          ("--- RINGKASAN ---\n" ++ summarize_text t.text svcs.summarizer 512 ++
            "\n\n--- TRANSKRIPSI LENGKAP ---\n" ++ C)
        success_count := st.success_count + 1
        tCalls := st.tCalls + t.calls
        summarizedTexts := st.summarizedTexts ++ [t.text]
        transcribedPaths := st.transcribedPaths ++ [p] } := by
  unfold afterTranscribe
  rw [h, if_pos rfl, if_pos ⟨hsum, htext⟩, hc]

theorem AT_fs_pres (svcs : Services) (cfg : Config) (st : BatchState) (p : String) (t : TAOut)
    {q : String} (hq : q ≠ t.output_path) :
    (afterTranscribe svcs cfg st p t).fs.read q = t.fs.read q := by
  unfold afterTranscribe
  split
  · split
    · split
      · exact FS.read_write_ne _ _ hq
      · rfl
    · rfl
  · rfl

theorem AT_existsP_mono (svcs : Services) (cfg : Config) (st : BatchState) (p : String)
    (t : TAOut) {q : String} (h : t.fs.existsP q = true) :
    (afterTranscribe svcs cfg st p t).fs.existsP q = true := by
  unfold afterTranscribe
  split
  · split
    · split
      · exact FS.existsP_write_mono _ _ _ h
      · exact h
    · exact h
  · exact h

theorem TA_existsP_mono (svcT : String → String → Option (String × List Segment))
    (fp outf lang : String) (fs : FS) {q : String} (h : fs.existsP q = true) :
    (transcribe_audio svcT fp outf lang fs).fs.existsP q = true := by
  unfold transcribe_audio
  dsimp only
  rcases hread : fs.read (outPathOf outf fp) with - | mv
  · rcases hsvc : svcT fp lang with - | ⟨T, segs⟩
    · exact h
    · exact FS.existsP_write_mono _ _ _ h
  · rcases mv with - | c
    · exact h
    · exact h

theorem DP_existsP_mono (svcs : Services) (cfg : Config) (f : String) (fs : FS) {q : String}
    (h : fs.existsP q = true) : (denoisePhase svcs cfg f fs).1.existsP q = true := by
  unfold denoisePhase
  dsimp only
  by_cases he : fs.existsP (cleanedPathC cfg f) = true
  · rw [he]
    exact h
  · rw [Bool.not_eq_true] at he
    rw [he]
    simp only [Bool.false_eq_true, if_false]
    rcases hread : fs.read (origPathC cfg f) with - | mv
    · exact h
    · rcases mv with - | d
      · exact h
      · dsimp only
        rcases hd : svcs.denoise d with - | cd
        · exact h
        · exact FS.existsP_write_mono _ _ _ h

theorem stepFile_fs_read_pres (svcs : Services) (cfg : Config) (st : BatchState) (f : String)
    {q : String} (h1 : q ≠ cleanedPathC cfg f)
    (h2 : ∀ B, q ≠ pjoin cfg.output_folder (B ++ ".txt")) :
    (stepFile svcs cfg st f).fs.read q = st.fs.read q := by
  unfold stepFile
  dsimp only
  generalize hdp : (if cfg.clean_noise then denoisePhase svcs cfg f st.fs
      else (st.fs, origPathC cfg f)) = dp
  have hdp1 : dp.1.read q = st.fs.read q := by
    rw [← hdp]
    by_cases hc : cfg.clean_noise = true
    · rw [if_pos hc]
      exact DP_read_pres svcs cfg f st.fs h1
    · rw [if_neg hc]
  have hout : q ≠ outPathOf cfg.output_folder dp.2 := h2 (baseNameOf dp.2)
  have htoq : q ≠ (transcribe_audio svcs.transcribe dp.2 cfg.output_folder cfg.language dp.1).output_path := by
    rw [TA_outpath]
    exact hout
  rw [AT_fs_pres svcs cfg st dp.2 _ htoq, TA_read_pres _ _ _ _ _ hout, hdp1]

theorem stepFile_existsP_mono (svcs : Services) (cfg : Config) (st : BatchState) (f : String)
    {q : String} (h : st.fs.existsP q = true) :
    (stepFile svcs cfg st f).fs.existsP q = true := by
  unfold stepFile
  dsimp only
  generalize hdp : (if cfg.clean_noise then denoisePhase svcs cfg f st.fs
      else (st.fs, origPathC cfg f)) = dp
  have hdp1 : dp.1.existsP q = true := by
    rw [← hdp]
    by_cases hc : cfg.clean_noise = true
    · rw [if_pos hc]
      exact DP_existsP_mono svcs cfg f st.fs h
    · rw [if_neg hc]
      exact h
  exact AT_existsP_mono svcs cfg st dp.2 _ (TA_existsP_mono _ _ _ _ _ hdp1)

theorem stepFile_new_exists (svcs : Services) (cfg : Config) (st : BatchState) (f : String)
    {q : String} (h1 : st.fs.existsP q = false)
    (h2 : (stepFile svcs cfg st f).fs.existsP q = true) :
    q = cleanedPathC cfg f ∨ ∃ B, q = pjoin cfg.output_folder (B ++ ".txt") := by
  by_contra hcon
  push_neg at hcon
  have := stepFile_fs_read_pres svcs cfg st f hcon.1 hcon.2
  rw [FS.existsP, this] at h2
  rw [FS.existsP] at h1
  rw [h1] at h2
  exact Bool.false_ne_true h2

theorem AT_counts_success {svcs : Services} {cfg : Config} {st : BatchState} {p : String}
    {t : TAOut} (h : t.success = true) :
    (afterTranscribe svcs cfg st p t).success_count = st.success_count + 1 ∧
      (afterTranscribe svcs cfg st p t).failure_count = st.failure_count := by
  unfold afterTranscribe
  rw [h, if_pos rfl]
  split
  · split
    · exact ⟨rfl, rfl⟩
    · exact ⟨rfl, rfl⟩
  · exact ⟨rfl, rfl⟩

theorem AT_counts (svcs : Services) (cfg : Config) (st : BatchState) (p : String) (t : TAOut) :
    ((afterTranscribe svcs cfg st p t).success_count = st.success_count + 1 ∧
      (afterTranscribe svcs cfg st p t).failure_count = st.failure_count) ∨
    ((afterTranscribe svcs cfg st p t).success_count = st.success_count ∧
      (afterTranscribe svcs cfg st p t).failure_count = st.failure_count + 1) := by
  by_cases h : t.success = true
  · exact Or.inl (AT_counts_success h)
  · rw [AT_fail (by simpa using h)]
    exact Or.inr ⟨rfl, rfl⟩

theorem stepFile_counts (svcs : Services) (cfg : Config) (st : BatchState) (f : String) :
    ((stepFile svcs cfg st f).success_count = st.success_count + 1 ∧
      (stepFile svcs cfg st f).failure_count = st.failure_count) ∨
    ((stepFile svcs cfg st f).success_count = st.success_count ∧
      (stepFile svcs cfg st f).failure_count = st.failure_count + 1) := by
  unfold stepFile
  dsimp only
  exact AT_counts svcs cfg st _ _

/-! ## Invariants for the run-twice (idempotence) analysis -/

/-- After a transcription attempt, either the artifact for the attempted
path exists, or the speech service raises on that path. -/
theorem TA_art_establish (svcT : String → String → Option (String × List Segment))
    (fp outf lang : String) (fs : FS) :
    (transcribe_audio svcT fp outf lang fs).fs.existsP (outPathOf outf fp) = true ∨
      svcT fp lang = none := by
  rcases hread : fs.read (outPathOf outf fp) with - | mv
  · rcases hsvc : svcT fp lang with - | ⟨T, segs⟩
    · exact Or.inr rfl
    · left
      rw [TA_fresh hread hsvc]
      simp [FS.existsP, FS.read_write_self]
  · rcases mv with - | c
    · left
      rw [TA_unreadable hread]
      exact FS.existsP_of_read_some _ hread
    · left
      rw [TA_reuse hread]
      exact FS.existsP_of_read_some _ hread

/-- If the artifact for the attempted path already exists, or the service
raises there, the transcription step leaves the filesystem unchanged. -/
theorem TA_fs_noop {svcT : String → String → Option (String × List Segment)}
    {fp outf lang : String} {fs : FS}
    (h : fs.existsP (outPathOf outf fp) = true ∨ svcT fp lang = none) :
    (transcribe_audio svcT fp outf lang fs).fs = fs := by
  rcases hread : fs.read (outPathOf outf fp) with - | mv
  · rcases h with hex | hsvc
    · rw [FS.existsP, hread] at hex
      simp at hex
    · rw [TA_svc_fail hread hsvc]
  · rcases mv with - | c
    · rw [TA_unreadable hread]
    · rw [TA_reuse hread]

theorem stepFile_clean_eq {svcs : Services} {cfg : Config} {st : BatchState} {f : String}
    (hcl : cfg.clean_noise = true) :
    stepFile svcs cfg st f =
      afterTranscribe svcs cfg st (denoisePhase svcs cfg f st.fs).2
        (transcribe_audio svcs.transcribe (denoisePhase svcs cfg f st.fs).2
          cfg.output_folder cfg.language (denoisePhase svcs cfg f st.fs).1) := by
  unfold stepFile
  dsimp only
  rw [if_pos hcl]

theorem stepFile_noclean_eq {svcs : Services} {cfg : Config} {st : BatchState} {f : String}
    (hcl : cfg.clean_noise = false) :
    stepFile svcs cfg st f =
      afterTranscribe svcs cfg st (origPathC cfg f)
        (transcribe_audio svcs.transcribe (origPathC cfg f)
          cfg.output_folder cfg.language st.fs) := by
  unfold stepFile
  dsimp only
  rw [if_neg (by rw [hcl]; exact Bool.false_ne_true)]

theorem stepFile_orig_read_pres (svcs : Services) (cfg : Config) (st : BatchState)
    {f g : String} (hf : GoodName f) (hg : '/' ∉ g.data) :
    (stepFile svcs cfg st g).fs.read (origPathC cfg f) = st.fs.read (origPathC cfg f) :=
  stepFile_fs_read_pres svcs cfg st g
    (orig_ne_cleaned cfg hf.1 (ne_empty_of_supported hf.2) hg)
    (fun B => orig_ne_txtpath cfg f B hf)

theorem stepFile_cfact_est (svcs : Services) (cfg : Config) (st : BatchState) (f : String)
    (hcl : cfg.clean_noise = true) (hf : '/' ∉ f.data) :
    CFactC svcs cfg f (stepFile svcs cfg st f).fs := by
  intro hex
  by_cases hcex : st.fs.existsP (cleanedPathC cfg f) = true
  · rcases TA_art_establish svcs.transcribe (cleanedPathC cfg f) cfg.output_folder
      cfg.language st.fs with h1 | h1
    · left
      rw [stepFile_clean_eq hcl, DP_cleaned_exists hcex]
      dsimp only
      apply AT_existsP_mono
      rw [← outPath_cleaned cfg f hf]
      exact h1
    · exact Or.inr h1
  · by_cases hdr : denoiseRaises svcs cfg f st.fs
    · exfalso
      have hdp := DP_fail (by simpa using hcex) hdr
      have hpres : (stepFile svcs cfg st f).fs.read (cleanedPathC cfg f) =
          st.fs.read (cleanedPathC cfg f) := by
        rw [stepFile_clean_eq hcl, hdp]
        dsimp only
        have h2 : cleanedPathC cfg f ≠ (transcribe_audio svcs.transcribe (origPathC cfg f)
            cfg.output_folder cfg.language st.fs).output_path := by
          rw [TA_outpath]
          exact cleaned_ne_txtpath cfg f _
        rw [AT_fs_pres _ _ _ _ _ h2, TA_read_pres _ _ _ _ _ (cleaned_ne_txtpath cfg f _)]
      rw [FS.existsP, hpres] at hex
      exact hcex hex
    · -- denoise succeeds: the cleaned file is created and immediately transcribed
      have hext : ∃ d cd, st.fs.read (origPathC cfg f) = some (some d) ∧
          svcs.denoise d = some cd := by
        unfold denoiseRaises at hdr
        rcases hrd : st.fs.read (origPathC cfg f) with - | mv
        · rw [hrd] at hdr
          exact absurd trivial hdr
        · rcases mv with - | d
          · rw [hrd] at hdr
            exact absurd trivial hdr
          · rw [hrd] at hdr
            dsimp only at hdr
            rcases hdn : svcs.denoise d with - | cd
            · exact absurd hdn hdr
            · exact ⟨d, cd, rfl, hdn⟩
      obtain ⟨d, cd, hr, hd⟩ := hext
      rcases TA_art_establish svcs.transcribe (cleanedPathC cfg f) cfg.output_folder
        cfg.language (st.fs.write (cleanedPathC cfg f) cd) with h1 | h1
      · left
        rw [stepFile_clean_eq hcl, DP_success (by simpa using hcex) hr hd]
        dsimp only
        apply AT_existsP_mono
        rw [← outPath_cleaned cfg f hf]
        exact h1
      · exact Or.inr h1

theorem AFC_pres (svcs : Services) (cfg : Config) (st : BatchState) {g f : String}
    (hf : GoodName f) (hg : '/' ∉ g.data) (haf : AFC svcs cfg f st.fs) :
    AFC svcs cfg f (stepFile svcs cfg st g).fs := by
  constructor
  · intro hcl
    rcases haf.1 hcl with h1 | ⟨hdr, hart⟩
    · exact Or.inl (stepFile_existsP_mono svcs cfg st g h1)
    · refine Or.inr ⟨?_, ?_⟩
      · unfold denoiseRaises at hdr ⊢
        rw [stepFile_orig_read_pres svcs cfg st hf hg]
        exact hdr
      · rcases hart with h2 | h2
        · exact Or.inl (stepFile_existsP_mono svcs cfg st g h2)
        · exact Or.inr h2
  · intro hcl
    rcases haf.2 hcl with h2 | h2
    · exact Or.inl (stepFile_existsP_mono svcs cfg st g h2)
    · exact Or.inr h2

theorem AFC_est (svcs : Services) (cfg : Config) (st : BatchState) (f : String)
    (hf : GoodName f) : AFC svcs cfg f (stepFile svcs cfg st f).fs := by
  have hfne := ne_empty_of_supported hf.2
  constructor
  · intro hcl
    by_cases hcex : st.fs.existsP (cleanedPathC cfg f) = true
    · exact Or.inl (stepFile_existsP_mono svcs cfg st f hcex)
    · by_cases hdr : denoiseRaises svcs cfg f st.fs
      · refine Or.inr ⟨?_, ?_⟩
        · unfold denoiseRaises at hdr ⊢
          rw [stepFile_orig_read_pres svcs cfg st hf hf.1]
          exact hdr
        · rcases TA_art_establish svcs.transcribe (origPathC cfg f) cfg.output_folder
            cfg.language st.fs with h1 | h1
          · left
            rw [stepFile_clean_eq hcl, DP_fail (by simpa using hcex) hdr]
            dsimp only
            apply AT_existsP_mono
            rw [← outPath_orig cfg f hf.1 hfne]
            exact h1
          · exact Or.inr h1
      · left
        have hext : ∃ d cd, st.fs.read (origPathC cfg f) = some (some d) ∧
            svcs.denoise d = some cd := by
          unfold denoiseRaises at hdr
          rcases hrd : st.fs.read (origPathC cfg f) with - | mv
          · rw [hrd] at hdr
            exact absurd trivial hdr
          · rcases mv with - | d
            · rw [hrd] at hdr
              exact absurd trivial hdr
            · rw [hrd] at hdr
              dsimp only at hdr
              rcases hdn : svcs.denoise d with - | cd
              · exact absurd hdn hdr
              · exact ⟨d, cd, rfl, hdn⟩
        obtain ⟨d, cd, hr, hd⟩ := hext
        rw [stepFile_clean_eq hcl, DP_success (by simpa using hcex) hr hd]
        dsimp only
        apply AT_existsP_mono
        apply TA_existsP_mono
        simp [FS.existsP, FS.read_write_self]
  · intro hclf
    rcases TA_art_establish svcs.transcribe (origPathC cfg f) cfg.output_folder
      cfg.language st.fs with h1 | h1
    · left
      rw [stepFile_noclean_eq hclf]
      apply AT_existsP_mono
      rw [← outPath_orig cfg f hf.1 hfne]
      exact h1
    · exact Or.inr h1

theorem CFact_pres (svcs : Services) (cfg : Config) (st : BatchState) {g f : String}
    (hf : '/' ∉ f.data) (hg : '/' ∉ g.data)
    (hcf : CFactC svcs cfg f st.fs) : CFactC svcs cfg f (stepFile svcs cfg st g).fs := by
  intro hex
  by_cases hold : st.fs.existsP (cleanedPathC cfg f) = true
  · rcases hcf hold with h1 | h1
    · exact Or.inl (stepFile_existsP_mono svcs cfg st g h1)
    · exact Or.inr h1
  · rcases stepFile_new_exists svcs cfg st g (by simpa using hold) hex with hcc | ⟨B, hB⟩
    · have hstem := cleanedPath_inj cfg hf hg hcc
      have haeq : aCleanP cfg f = aCleanP cfg g := by
        unfold aCleanP
        rw [hstem]
      by_cases hcl : cfg.clean_noise = true
      · rcases stepFile_cfact_est svcs cfg st g hcl hg (by rw [← hcc]; exact hex) with h1 | h1
        · exact Or.inl (by rw [haeq]; exact h1)
        · exact Or.inr (by rw [hcc]; exact h1)
      · exfalso
        have hclf : cfg.clean_noise = false := by simpa using hcl
        have hpres : (stepFile svcs cfg st g).fs.read (cleanedPathC cfg f) =
            st.fs.read (cleanedPathC cfg f) := by
          rw [stepFile_noclean_eq hclf]
          have h2 : cleanedPathC cfg f ≠ (transcribe_audio svcs.transcribe (origPathC cfg g)
              cfg.output_folder cfg.language st.fs).output_path := by
            rw [TA_outpath]
            exact cleaned_ne_txtpath cfg f _
          rw [AT_fs_pres _ _ _ _ _ h2, TA_read_pres _ _ _ _ _ (cleaned_ne_txtpath cfg f _)]
        rw [FS.existsP, hpres] at hex
        exact hold hex
    · exact absurd hB (cleaned_ne_txtpath cfg f B)

theorem stepFile_noop (svcs : Services) (cfg : Config) (st : BatchState) (f : String)
    (hs : cfg.summarize = false) (hf : GoodName f)
    (haf : AFC svcs cfg f st.fs) (hcf : cfg.clean_noise = true → CFactC svcs cfg f st.fs) :
    (stepFile svcs cfg st f).fs = st.fs := by
  have hfne := ne_empty_of_supported hf.2
  have hATfs : ∀ p t, (afterTranscribe svcs cfg st p t).fs = t.fs := by
    intro p t
    by_cases ht : t.success = true
    · rw [AT_success_nosum ht (by rw [hs]; simp)]
    · rw [AT_fail (by simpa using ht)]
  by_cases hcl : cfg.clean_noise = true
  · rw [stepFile_clean_eq hcl, hATfs]
    by_cases hcex : st.fs.existsP (cleanedPathC cfg f) = true
    · rw [DP_cleaned_exists hcex]
      dsimp only
      apply TA_fs_noop
      rcases hcf hcl hcex with h1 | h1
      · left
        rw [outPath_cleaned cfg f hf.1]
        exact h1
      · exact Or.inr h1
    · rcases haf.1 hcl with h1 | ⟨hdr, hart⟩
      · exact absurd h1 hcex
      · rw [DP_fail (by simpa using hcex) hdr]
        dsimp only
        apply TA_fs_noop
        rcases hart with h1 | h1
        · left
          rw [outPath_orig cfg f hf.1 hfne]
          exact h1
        · exact Or.inr h1
  · have hclf : cfg.clean_noise = false := by simpa using hcl
    rw [stepFile_noclean_eq hclf, hATfs]
    apply TA_fs_noop
    rcases haf.2 hclf with h1 | h1
    · left
      rw [outPath_orig cfg f hf.1 hfne]
      exact h1
    · exact Or.inr h1

theorem fold_invariants (svcs : Services) (cfg : Config) (fl : List String) (st : BatchState)
    (hfl : ∀ x ∈ fl, GoodName x) :
    (∀ f, GoodName f → AFC svcs cfg f st.fs →
      AFC svcs cfg f (fl.foldl (stepFile svcs cfg) st).fs) ∧
    (∀ f ∈ fl, AFC svcs cfg f (fl.foldl (stepFile svcs cfg) st).fs) ∧
    (∀ f, '/' ∉ f.data → CFactC svcs cfg f st.fs →
      CFactC svcs cfg f (fl.foldl (stepFile svcs cfg) st).fs) ∧
    (cfg.clean_noise = true → ∀ f ∈ fl, CFactC svcs cfg f (fl.foldl (stepFile svcs cfg) st).fs) := by
  induction fl generalizing st with
  | nil =>
    exact ⟨fun f _ h => h, fun f hf => absurd hf (List.not_mem_nil f),
      fun f _ h => h, fun _ f hf => absurd hf (List.not_mem_nil f)⟩
  | cons g gl ih =>
    have hg : GoodName g := hfl g (List.mem_cons_self g gl)
    have hgl : ∀ x ∈ gl, GoodName x := fun x hx => hfl x (List.mem_cons_of_mem g hx)
    obtain ⟨ih1, ih2, ih3, ih4⟩ := ih (stepFile svcs cfg st g) hgl
    simp only [List.foldl_cons]
    refine ⟨?_, ?_, ?_, ?_⟩
    · intro f hfg haf
      exact ih1 f hfg (AFC_pres svcs cfg st hfg hg.1 haf)
    · intro f hmem
      rcases List.mem_cons.mp hmem with rfl | hmem
      · exact ih1 f hg (AFC_est svcs cfg st f hg)
      · exact ih2 f hmem
    · intro f h1 hcf
      exact ih3 f h1 (CFact_pres svcs cfg st h1 hg.1 hcf)
    · intro hcl f hmem
      rcases List.mem_cons.mp hmem with rfl | hmem
      · exact ih3 f hg.1 (stepFile_cfact_est svcs cfg st f hcl hg.1)
      · exact ih4 hcl f hmem

theorem fold_noop (svcs : Services) (cfg : Config) (fl : List String) (st : BatchState)
    (hs : cfg.summarize = false) (hfl : ∀ x ∈ fl, GoodName x)
    (hset : ∀ f ∈ fl, AFC svcs cfg f st.fs ∧
      (cfg.clean_noise = true → CFactC svcs cfg f st.fs)) :
    (fl.foldl (stepFile svcs cfg) st).fs = st.fs := by
  induction fl generalizing st with
  | nil => rfl
  | cons g gl ih =>
    simp only [List.foldl_cons]
    have hg := hfl g (List.mem_cons_self g gl)
    have hgfact := hset g (List.mem_cons_self g gl)
    have hstep : (stepFile svcs cfg st g).fs = st.fs :=
      stepFile_noop svcs cfg st g hs hg hgfact.1 hgfact.2
    have hrest : (gl.foldl (stepFile svcs cfg) (stepFile svcs cfg st g)).fs =
        (stepFile svcs cfg st g).fs := by
      apply ih (stepFile svcs cfg st g) (fun x hx => hfl x (List.mem_cons_of_mem g hx))
      intro f hf2
      rw [hstep]
      exact hset f (List.mem_cons_of_mem g hf2)
    rw [hrest, hstep]

/-! ## Driver-level lemmas -/

theorem runMain_dir_missing (svcs : Services) (cfg : Config) (dirs listing : List String)
    (fs : FS) (h : dirs.contains cfg.audio_folder = false) :
    runMain svcs cfg dirs listing fs =
      ⟨⟨fs, 0, 0, 0, [], []⟩,
        ([MainEvent.loadWhisperModel] ++
          (if cfg.summarize then [MainEvent.loadSummarizer] else [])) ++
          [MainEvent.reportMissingFolder]⟩ := by
  unfold runMain
  rw [h]
  rfl

theorem runMain_empty (svcs : Services) (cfg : Config) (dirs listing : List String)
    (fs : FS) (hd : dirs.contains cfg.audio_folder = true)
    (he : (listing.filter hasSupportedExt).isEmpty = true) :
    (runMain svcs cfg dirs listing fs).state = ⟨fs, 0, 0, 0, [], []⟩ := by
  unfold runMain
  rw [hd]
  dsimp only
  rw [he]
  rfl

theorem runMain_state_fold (svcs : Services) (cfg : Config) (dirs listing : List String)
    (fs : FS) (hd : dirs.contains cfg.audio_folder = true)
    (he : (listing.filter hasSupportedExt).isEmpty = false) :
    (runMain svcs cfg dirs listing fs).state =
      (listing.filter hasSupportedExt).foldl (stepFile svcs cfg) ⟨fs, 0, 0, 0, [], []⟩ := by
  unfold runMain
  rw [hd]
  dsimp only
  rw [he]
  rfl

theorem read_none_of_existsP_false {fs : FS} {p : String} (h : fs.existsP p = false) :
    fs.read p = none := by
  rw [FS.existsP] at h
  cases hr : fs.read p
  · rfl
  · rw [hr] at h
    simp at h

theorem fold_counts (svcs : Services) (cfg : Config) (fl : List String) (st : BatchState) :
    (fl.foldl (stepFile svcs cfg) st).success_count +
        (fl.foldl (stepFile svcs cfg) st).failure_count =
      st.success_count + st.failure_count + fl.length := by
  induction fl generalizing st with
  | nil => simp
  | cons g gl ih =>
    simp only [List.foldl_cons, List.length_cons]
    rw [ih]
    rcases stepFile_counts svcs cfg st g with ⟨h1, h2⟩ | ⟨h1, h2⟩
    · rw [h1, h2]
      omega
    · rw [h1, h2]
      omega

theorem AT_paths (svcs : Services) (cfg : Config) (st : BatchState) (p : String) (t : TAOut) :
    (afterTranscribe svcs cfg st p t).transcribedPaths = st.transcribedPaths ++ [p] := by
  unfold afterTranscribe
  split
  · split
    · split
      · rfl
      · rfl
    · rfl
  · rfl

/-! ## Lemmas about whitespace splitting and chunking -/

theorem splitWsAux_good : ∀ (l acc : List Char), (∀ c ∈ acc, c.isWhitespace = false) →
    ∀ w ∈ splitWsAux l acc, w ≠ [] ∧ ∀ c ∈ w, c.isWhitespace = false := by
  intro l
  induction l with
  | nil =>
    intro acc hacc w hw
    unfold splitWsAux at hw
    by_cases ha : acc.isEmpty = true
    · rw [if_pos ha] at hw
      exact absurd hw (List.not_mem_nil w)
    · rw [if_neg ha] at hw
      rcases List.mem_singleton.mp hw with rfl
      refine ⟨?_, ?_⟩
      · intro hrev
        have : acc = [] := by simpa using congrArg List.reverse hrev
        rw [this] at ha
        exact ha rfl
      · intro c hc
        exact hacc c (List.mem_reverse.mp hc)
  | cons c cs ih =>
    intro acc hacc w hw
    unfold splitWsAux at hw
    by_cases hc : c.isWhitespace = true
    · rw [if_pos hc] at hw
      by_cases ha : acc.isEmpty = true
      · rw [if_pos ha] at hw
        exact ih [] (by simp) w hw
      · rw [if_neg ha] at hw
        rcases List.mem_cons.mp hw with rfl | hw
        · refine ⟨?_, ?_⟩
          · intro hrev
            have : acc = [] := by simpa using congrArg List.reverse hrev
            rw [this] at ha
            exact ha rfl
          · intro x hx
            exact hacc x (List.mem_reverse.mp hx)
        · exact ih [] (by simp) w hw
    · rw [if_neg hc] at hw
      refine ih (c :: acc) ?_ w hw
      intro x hx
      rcases List.mem_cons.mp hx with rfl | hx
      · simpa using hc
      · exact hacc x hx

theorem splitWsAux_chunk : ∀ (w : List Char), (∀ c ∈ w, c.isWhitespace = false) →
    ∀ (rest acc : List Char),
      splitWsAux (w ++ rest) acc = splitWsAux rest (w.reverse ++ acc) := by
  intro w
  induction w with
  | nil => intro _ rest acc; simp
  | cons c cw ih =>
    intro hgood rest acc
    have hc : c.isWhitespace = false := by simpa using hgood c (List.mem_cons_self c cw)
    have hstep : splitWsAux ((c :: cw) ++ rest) acc = splitWsAux (cw ++ rest) (c :: acc) := by
      show (if c.isWhitespace then
          (if acc.isEmpty then splitWsAux (cw ++ rest) []
            else acc.reverse :: splitWsAux (cw ++ rest) [])
        else splitWsAux (cw ++ rest) (c :: acc)) = splitWsAux (cw ++ rest) (c :: acc)
      rw [if_neg (by rw [hc]; exact Bool.false_ne_true)]
    rw [hstep, ih (fun x hx => hgood x (List.mem_cons_of_mem c hx)) rest (c :: acc)]
    congr 1
    simp

theorem splitWsAux_nil_acc (acc : List Char) (ha : acc.isEmpty = false) :
    splitWsAux [] acc = [acc.reverse] := by
  conv_lhs => unfold splitWsAux
  rw [if_neg (by rw [ha]; exact Bool.false_ne_true)]

theorem splitWsAux_space_cons (rest acc : List Char) (ha : acc.isEmpty = false) :
    splitWsAux (' ' :: rest) acc = acc.reverse :: splitWsAux rest [] := by
  conv_lhs => unfold splitWsAux
  rw [if_pos (by decide), if_neg (by rw [ha]; exact Bool.false_ne_true)]

theorem isEmpty_reverse_false {w : List Char} (hne : w ≠ []) :
    (w.reverse).isEmpty = false := by
  rcases List.exists_cons_of_ne_nil (fun h => hne (List.reverse_eq_nil_iff.mp h) :
    w.reverse ≠ []) with ⟨a, t, h⟩
  rw [h]
  rfl

theorem splitWsAux_word_only (w : List Char) (hw : ∀ c ∈ w, c.isWhitespace = false)
    (hne : w ≠ []) : splitWsAux w [] = [w] := by
  have h := splitWsAux_chunk w hw [] []
  rw [List.append_nil] at h
  rw [h, List.append_nil, splitWsAux_nil_acc _ (isEmpty_reverse_false hne)]
  simp

theorem splitWsAux_word_space (w : List Char) (hw : ∀ c ∈ w, c.isWhitespace = false)
    (hne : w ≠ []) (rest : List Char) :
    splitWsAux (w ++ (' ' :: rest)) [] = w :: splitWsAux rest [] := by
  rw [splitWsAux_chunk w hw (' ' :: rest) [], List.append_nil,
    splitWsAux_space_cons rest w.reverse (isEmpty_reverse_false hne)]
  simp

theorem pySplit_good (T : String) :
    ∀ w ∈ pySplit T, w.data ≠ [] ∧ ∀ c ∈ w.data, c.isWhitespace = false := by
  intro w hw
  unfold pySplit at hw
  rcases List.mem_map.mp hw with ⟨wl, hwl, rfl⟩
  exact splitWsAux_good T.data [] (by simp) wl hwl

theorem pySplit_joinSep (ws : List String)
    (hgood : ∀ w ∈ ws, w.data ≠ [] ∧ ∀ c ∈ w.data, c.isWhitespace = false) :
    pySplit (joinSep " " ws) = ws := by
  induction ws with
  | nil => rfl
  | cons x xs ih =>
    cases xs with
    | nil =>
      have hx := hgood x (List.mem_cons_self x [])
      show pySplit x = [x]
      unfold pySplit
      rw [splitWsAux_word_only x.data hx.2 hx.1]
      rfl
    | cons y ys =>
      have hx := hgood x (List.mem_cons_self x (y :: ys))
      have hrest : ∀ w ∈ y :: ys, w.data ≠ [] ∧ ∀ c ∈ w.data, c.isWhitespace = false :=
        fun w hw => hgood w (List.mem_cons_of_mem x hw)
      have hdata : (joinSep " " (x :: y :: ys)).data =
          x.data ++ (' ' :: (joinSep " " (y :: ys)).data) := by
        show ((x ++ " ") ++ joinSep " " (y :: ys)).data = _
        rw [String.data_append, String.data_append]
        simp
      show pySplit (joinSep " " (x :: y :: ys)) = x :: y :: ys
      unfold pySplit
      rw [hdata, splitWsAux_word_space x.data hx.2 hx.1]
      simp only [List.map_cons]
      have ih2 := ih hrest
      unfold pySplit at ih2
      rw [ih2]

theorem chunkFuel_congr : ∀ (f1 f2 n : Nat) (l : List String),
    l.length ≤ f1 → l.length ≤ f2 → chunkFuel f1 n l = chunkFuel f2 n l := by
  intro f1
  induction f1 with
  | zero =>
    intro f2 n l h1 h2
    have : l = [] := List.eq_nil_of_length_eq_zero (Nat.le_zero.mp h1)
    subst this
    cases f2 <;> rfl
  | succ a ih =>
    intro f2 n l h1 h2
    cases l with
    | nil => cases f2 <;> rfl
    | cons x xs =>
      cases f2 with
      | zero => simp at h2
      | succ b =>
        simp only [chunkFuel]
        by_cases hn : n = 0
        · rw [if_pos hn, if_pos hn]
        · rw [if_neg hn, if_neg hn]
          have hg : 1 ≤ n := Nat.one_le_iff_ne_zero.mpr hn
          have hla : ((x :: xs).drop n).length ≤ a := by
            simp only [List.length_drop, List.length_cons]
            simp only [List.length_cons] at h1
            omega
          have hlb : ((x :: xs).drop n).length ≤ b := by
            simp only [List.length_drop, List.length_cons]
            simp only [List.length_cons] at h2
            omega
          rw [ih b n _ hla hlb]

/-- The recursion equation `chunkGroups` satisfies (what the direct
well-founded definition would unfold to on a `cons`). -/
theorem chunkGroups_cons (n : Nat) (x : String) (xs : List String) :
    chunkGroups n (x :: xs) =
      if n = 0 then [] else (x :: xs).take n :: chunkGroups n ((x :: xs).drop n) := by
  show chunkFuel (xs.length + 1) n (x :: xs) = _
  simp only [chunkFuel]
  by_cases hn : n = 0
  · rw [if_pos hn, if_pos hn]
  · rw [if_neg hn, if_neg hn]
    have hg : 1 ≤ n := Nat.one_le_iff_ne_zero.mpr hn
    unfold chunkGroups
    rw [chunkFuel_congr xs.length (((x :: xs).drop n).length) n _ (by
      simp only [List.length_drop, List.length_cons]
      omega) le_rfl]

theorem chunkGroups_flatten (n : Nat) (hn : n ≠ 0) :
    ∀ (m : Nat) (l : List String), l.length ≤ m → (chunkGroups n l).flatten = l := by
  intro m
  induction m with
  | zero =>
    intro l hl
    have : l = [] := List.eq_nil_of_length_eq_zero (Nat.le_zero.mp hl)
    subst this
    rfl
  | succ m ih =>
    intro l hl
    cases l with
    | nil => rfl
    | cons x xs =>
      rw [chunkGroups_cons]
      rw [if_neg hn]
      rw [List.flatten_cons]
      rw [ih ((x :: xs).drop n) (by
        simp only [List.length_drop, List.length_cons]
        simp only [List.length_cons] at hl
        omega)]
      exact List.take_append_drop n (x :: xs)

theorem chunkGroups_mem (n : Nat) :
    ∀ (m : Nat) (l : List String), l.length ≤ m →
      ∀ g ∈ chunkGroups n l, g.length ≤ n ∧ g ≠ [] ∧ ∀ x ∈ g, x ∈ l := by
  intro m
  induction m with
  | zero =>
    intro l hl g hg
    have : l = [] := List.eq_nil_of_length_eq_zero (Nat.le_zero.mp hl)
    subst this
    rw [show chunkGroups n ([] : List String) = [] from rfl] at hg
    exact absurd hg (List.not_mem_nil g)
  | succ m ih =>
    intro l hl g hg
    cases l with
    | nil =>
      rw [show chunkGroups n ([] : List String) = [] from rfl] at hg
      exact absurd hg (List.not_mem_nil g)
    | cons x xs =>
      rw [chunkGroups_cons] at hg
      by_cases hn : n = 0
      · rw [if_pos hn] at hg
        exact absurd hg (List.not_mem_nil g)
      · rw [if_neg hn] at hg
        rcases List.mem_cons.mp hg with rfl | hg
        · refine ⟨?_, ?_, ?_⟩
          · rw [List.length_take]
            exact min_le_left _ _
          · cases n with
            | zero => exact absurd rfl hn
            | succ k => simp
          · intro y hy
            exact List.mem_of_mem_take hy
        · have h2 := ih ((x :: xs).drop n) (by
            simp only [List.length_drop, List.length_cons]
            simp only [List.length_cons] at hl
            omega) g hg
          exact ⟨h2.1, h2.2.1, fun y hy => List.mem_of_mem_drop (h2.2.2 y hy)⟩

theorem flatten_ne_nil {gs : List (List String)} (hne : gs ≠ [])
    (h : ∀ g ∈ gs, g ≠ []) : gs.flatten ≠ [] := by
  cases gs with
  | nil => exact absurd rfl hne
  | cons g gl =>
    rw [List.flatten_cons]
    intro hj
    rcases List.append_eq_nil.mp hj with ⟨hg, -⟩
    exact h g (List.mem_cons_self g gl) hg

theorem joinSep_append (sep : String) :
    ∀ (a b : List String), a ≠ [] → b ≠ [] →
      joinSep sep (a ++ b) = joinSep sep a ++ sep ++ joinSep sep b := by
  intro a
  induction a with
  | nil => intro b ha _; exact absurd rfl ha
  | cons x a2 ih =>
    intro b _ hb
    cases a2 with
    | nil =>
      cases b with
      | nil => exact absurd rfl hb
      | cons y ys => rfl
    | cons z zs =>
      have h1 : joinSep sep ((x :: z :: zs) ++ b) =
          x ++ sep ++ joinSep sep ((z :: zs) ++ b) := rfl
      rw [h1, ih b (by simp) hb]
      show _ = (x ++ sep ++ joinSep sep (z :: zs)) ++ sep ++ joinSep sep b
      simp [String.append_assoc]

theorem joinSep_nested : ∀ (gs : List (List String)), (∀ g ∈ gs, g ≠ []) →
    joinSep " " (gs.map (joinSep " ")) = joinSep " " gs.flatten := by
  intro gs
  induction gs with
  | nil => intro _; rfl
  | cons g gl ih =>
    intro h
    cases gl with
    | nil =>
      show joinSep " " [joinSep " " g] = joinSep " " (g ++ ([] : List (List String)).flatten)
      simp only [List.flatten_nil, List.append_nil]
      rfl
    | cons g2 gl2 =>
      have hg : g ≠ [] := h g (List.mem_cons_self g (g2 :: gl2))
      have hrest : ∀ x ∈ g2 :: gl2, x ≠ [] := fun x hx => h x (List.mem_cons_of_mem g hx)
      have hjoin_ne2 : g2 ++ gl2.flatten ≠ [] := by
        intro hq
        rcases List.append_eq_nil.mp hq with ⟨hg2, -⟩
        exact hrest g2 (List.mem_cons_self g2 gl2) hg2
      have hmapne : (g2 :: gl2).map (joinSep " ") ≠ [] := by simp
      have h1 : joinSep " " (((g :: g2 :: gl2).map (joinSep " "))) =
          joinSep " " ([joinSep " " g] ++ (g2 :: gl2).map (joinSep " ")) := rfl
      rw [h1, joinSep_append " " [joinSep " " g] _ (by simp) hmapne]
      rw [ih hrest]
      simp only [List.flatten_cons]
      rw [joinSep_append " " g (g2 ++ gl2.flatten) hg hjoin_ne2]
      rfl

/-! ## Lemmas about separator splitting (the transcript marker) -/

theorem splitSepFuel_congr (sep : List Char) : ∀ (f1 f2 : Nat) (l : List Char),
    l.length ≤ f1 → l.length ≤ f2 → splitSepFuel sep f1 l = splitSepFuel sep f2 l := by
  intro f1
  induction f1 with
  | zero =>
    intro f2 l h1 h2
    have : l = [] := List.eq_nil_of_length_eq_zero (Nat.le_zero.mp h1)
    subst this
    cases f2 <;> rfl
  | succ a ih =>
    intro f2 l h1 h2
    cases l with
    | nil => cases f2 <;> rfl
    | cons c cs =>
      cases f2 with
      | zero => simp at h2
      | succ b =>
        simp only [splitSepFuel]
        by_cases hc : sep ≠ [] ∧ sep.isPrefixOf (c :: cs) = true
        · rw [if_pos hc, if_pos hc]
          have hs1 : 1 ≤ sep.length := List.length_pos.mpr hc.1
          have hla : ((c :: cs).drop sep.length).length ≤ a := by
            simp only [List.length_drop, List.length_cons]
            simp only [List.length_cons] at h1
            omega
          have hlb : ((c :: cs).drop sep.length).length ≤ b := by
            simp only [List.length_drop, List.length_cons]
            simp only [List.length_cons] at h2
            omega
          rw [ih b _ hla hlb]
        · rw [if_neg hc, if_neg hc]
          have hla : cs.length ≤ a := by
            simp only [List.length_cons] at h1
            omega
          have hlb : cs.length ≤ b := by
            simp only [List.length_cons] at h2
            omega
          rw [ih b cs hla hlb]

/-- The recursion equation `splitSepCh` satisfies (what the direct
well-founded definition would unfold to on a `cons`). -/
theorem splitSepCh_cons (sep : List Char) (c : Char) (cs : List Char) :
    splitSepCh sep (c :: cs) =
      if sep ≠ [] ∧ sep.isPrefixOf (c :: cs) then
        [] :: splitSepCh sep ((c :: cs).drop sep.length)
      else
        consHead c (splitSepCh sep cs) := by
  show splitSepFuel sep (cs.length + 1) (c :: cs) = _
  simp only [splitSepFuel]
  by_cases hc : sep ≠ [] ∧ sep.isPrefixOf (c :: cs) = true
  · rw [if_pos hc, if_pos hc]
    have hs1 : 1 ≤ sep.length := List.length_pos.mpr hc.1
    unfold splitSepCh
    rw [splitSepFuel_congr sep cs.length (((c :: cs).drop sep.length).length) _ (by
      simp only [List.length_drop, List.length_cons]
      omega) le_rfl]
  · rw [if_neg hc, if_neg hc]
    rfl

theorem consHead_ne_nil (c : Char) (ls : List (List Char)) : consHead c ls ≠ [] := by
  cases ls <;> simp [consHead]

theorem splitSepCh_ne_nil (sep l : List Char) : splitSepCh sep l ≠ [] := by
  cases l with
  | nil => simp [splitSepCh, splitSepFuel]
  | cons c cs =>
    rw [splitSepCh_cons]
    split
    · simp
    · exact consHead_ne_nil c _

theorem lastOf_cons {x : List Char} {r : List (List Char)} (h : r ≠ []) :
    lastOf (x :: r) = lastOf r := by
  cases r with
  | nil => exact absurd rfl h
  | cons y ys =>
    unfold lastOf
    rw [List.getLast?_cons_cons]

theorem not_occurs_nil {sep : List Char} (hsep : sep ≠ []) : ¬ occursSeq sep [] := by
  rintro ⟨a, b, h⟩
  rcases List.append_eq_nil.mp h.symm with ⟨h1, -⟩
  rcases List.append_eq_nil.mp h1 with ⟨-, hs⟩
  exact hsep hs

theorem occurs_cons_elim {sep : List Char} {c : Char} {cs : List Char}
    (h : occursSeq sep (c :: cs)) (hnp : ¬ sep.isPrefixOf (c :: cs) = true) :
    occursSeq sep cs := by
  rcases h with ⟨a, b, hab⟩
  cases a with
  | nil =>
    exfalso
    apply hnp
    apply (List.isPrefixOf_iff_prefix).mpr
    exact ⟨b, by simpa using hab.symm⟩
  | cons x a2 =>
    rw [List.cons_append, List.cons_append] at hab
    injection hab with h1 h2
    exact ⟨a2, b, h2⟩

theorem splitSepCh_len2 (sep : List Char) (hsep : sep ≠ []) :
    ∀ (n : Nat) (l : List Char), l.length ≤ n → occursSeq sep l →
      2 ≤ (splitSepCh sep l).length := by
  intro n
  induction n with
  | zero =>
    intro l hl hocc
    have : l = [] := List.eq_nil_of_length_eq_zero (Nat.le_zero.mp hl)
    subst this
    exact absurd hocc (not_occurs_nil hsep)
  | succ n ih =>
    intro l hl hocc
    cases l with
    | nil => exact absurd hocc (not_occurs_nil hsep)
    | cons c cs =>
      rw [splitSepCh_cons]
      split
      · have := List.length_pos.mpr (splitSepCh_ne_nil sep ((c :: cs).drop sep.length))
        simp only [List.length_cons]
        omega
      · rename_i hnd
        have hnp : ¬ sep.isPrefixOf (c :: cs) = true := fun hq => hnd ⟨hsep, hq⟩
        have hocc2 := occurs_cons_elim hocc hnp
        have h2 := ih cs (by
          simp only [List.length_cons] at hl
          omega) hocc2
        cases hsp : splitSepCh sep cs with
        | nil => exact absurd hsp (splitSepCh_ne_nil sep cs)
        | cons w rest =>
          rw [hsp] at h2
          simpa [consHead] using h2

theorem splitSep_nil (sep : List Char) : splitSepCh sep [] = [[]] := rfl

theorem splitSep_last_spec_aux (sep : List Char) (hsep : sep ≠ []) :
    ∀ (n : Nat) (l : List Char), l.length ≤ n →
      ∃ q, l = q ++ lastOf (splitSepCh sep l) ∧
        ¬ occursSeq sep (lastOf (splitSepCh sep l)) ∧
        ((q = [] ∧ splitSepCh sep l = [lastOf (splitSepCh sep l)]) ∨ sep <:+ q) := by
  intro n
  induction n with
  | zero =>
    intro l hl
    have : l = [] := List.eq_nil_of_length_eq_zero (Nat.le_zero.mp hl)
    subst this
    refine ⟨[], ?_, ?_, Or.inl ⟨rfl, ?_⟩⟩
    · rw [splitSep_nil]
      rfl
    · rw [splitSep_nil]
      exact not_occurs_nil hsep
    · rw [splitSep_nil]
      rfl
  | succ n ih =>
    intro l hl
    cases l with
    | nil =>
      refine ⟨[], ?_, ?_, Or.inl ⟨rfl, ?_⟩⟩
      · rw [splitSep_nil]
        rfl
      · rw [splitSep_nil]
        exact not_occurs_nil hsep
      · rw [splitSep_nil]
        rfl
    | cons c cs =>
      have hs1 : 1 ≤ sep.length := List.length_pos.mpr hsep
      by_cases hp : sep.isPrefixOf (c :: cs) = true
      · have heq : splitSepCh sep (c :: cs) =
            [] :: splitSepCh sep ((c :: cs).drop sep.length) := by
          rw [splitSepCh_cons, if_pos ⟨hsep, hp⟩]
        obtain ⟨t, ht⟩ := (List.isPrefixOf_iff_prefix).mp hp
        have hdrop : (c :: cs).drop sep.length = t := by
          rw [← ht]
          exact List.drop_left sep t
        obtain ⟨q2, h1, h2, h3⟩ := ih ((c :: cs).drop sep.length) (by
          simp only [List.length_drop, List.length_cons]
          simp only [List.length_cons] at hl
          omega)
        have hlast : lastOf (splitSepCh sep (c :: cs)) =
            lastOf (splitSepCh sep ((c :: cs).drop sep.length)) := by
          rw [heq]
          exact lastOf_cons (splitSepCh_ne_nil _ _)
        rw [hdrop] at h1 h2 hlast
        refine ⟨sep ++ q2, ?_, ?_, Or.inr ?_⟩
        · rw [hlast, List.append_assoc, ← h1, ht]
        · rw [hlast]
          exact h2
        · rcases h3 with ⟨hq2, -⟩ | hq3
          · rw [hq2, List.append_nil]
          · rcases hq3 with ⟨x, hx⟩
            refine ⟨sep ++ x, ?_⟩
            rw [List.append_assoc, hx]
      · have hnd : ¬ (sep ≠ [] ∧ sep.isPrefixOf (c :: cs) = true) := fun hh => hp hh.2
        have heq : splitSepCh sep (c :: cs) = consHead c (splitSepCh sep cs) := by
          rw [splitSepCh_cons, if_neg hnd]
        obtain ⟨q2, h1, h2, h3⟩ := ih cs (by
          simp only [List.length_cons] at hl
          omega)
        cases hsp : splitSepCh sep cs with
        | nil => exact absurd hsp (splitSepCh_ne_nil sep cs)
        | cons w rest =>
          cases rest with
          | nil =>
            have hlw : lastOf (splitSepCh sep cs) = w := by
              rw [hsp]
              rfl
            have hlast : lastOf (splitSepCh sep (c :: cs)) = c :: w := by
              rw [heq, hsp]
              rfl
            rcases h3 with ⟨hq2, -⟩ | hq3
            · have hcsw : cs = w := by
                rw [hq2, hlw] at h1
                simpa using h1
              refine ⟨[], ?_, ?_, Or.inl ⟨rfl, ?_⟩⟩
              · rw [hlast, hcsw]
                rfl
              · rw [hlast]
                rintro ⟨a, b, hab⟩
                cases a with
                | nil =>
                  apply hp
                  apply (List.isPrefixOf_iff_prefix).mpr
                  refine ⟨b, ?_⟩
                  rw [hcsw]
                  simpa using hab.symm
                | cons x a2 =>
                  rw [List.cons_append, List.cons_append] at hab
                  injection hab with hh1 hh2
                  rw [hlw] at h2
                  exact h2 ⟨a2, b, hh2⟩
              · rw [heq, hsp]
                rfl
            · exfalso
              rcases hq3 with ⟨x, hx⟩
              have hocc : occursSeq sep cs := ⟨x, lastOf (splitSepCh sep cs), by
                conv_lhs => rw [h1]
                rw [← hx]⟩
              have hlen := splitSepCh_len2 sep hsep cs.length cs le_rfl hocc
              rw [hsp] at hlen
              simp at hlen
          | cons w2 rest2 =>
            have hlast : lastOf (splitSepCh sep (c :: cs)) = lastOf (splitSepCh sep cs) := by
              rw [heq, hsp]
              show lastOf ((c :: w) :: w2 :: rest2) = lastOf (w :: w2 :: rest2)
              unfold lastOf
              rw [List.getLast?_cons_cons, List.getLast?_cons_cons]
            rcases h3 with ⟨hq2, hsingle⟩ | hq3
            · exfalso
              rw [hsp] at hsingle
              have := congrArg List.length hsingle
              simp at this
            · refine ⟨c :: q2, ?_, ?_, Or.inr ?_⟩
              · rw [hlast]
                show c :: cs = (c :: q2) ++ lastOf (splitSepCh sep cs)
                rw [List.cons_append, ← h1]
              · rw [hlast]
                exact h2
              · rcases hq3 with ⟨x, hx⟩
                refine ⟨c :: x, ?_⟩
                rw [List.cons_append, hx]

/-- Structure of the last piece of a Python `split`: the input decomposes as
`q ++ p` where `p` is the last piece, `p` contains no full separator
occurrence, and `q` (when nonempty) ends with the separator occurrence the
scan consumed last. -/
theorem splitSep_last_spec (sep : List Char) (hsep : sep ≠ []) (l : List Char) :
    ∃ q, l = q ++ lastOf (splitSepCh sep l) ∧
      ¬ occursSeq sep (lastOf (splitSepCh sep l)) ∧
      (q = [] ∨ sep <:+ q) := by
  obtain ⟨q, h1, h2, h3⟩ := splitSep_last_spec_aux sep hsep l.length l le_rfl
  refine ⟨q, h1, h2, ?_⟩
  rcases h3 with ⟨hq, -⟩ | hq
  · exact Or.inl hq
  · exact Or.inr hq


/-! ## The claims -/

/-- Claim C1, corrected.  The idempotence the spec claims holds for every
flag combination without `--summarize`: a second run over the folder state
left by a first run changes no file, and the speech-recognition service is
never invoked for a file whose artifact already exists (its call count is 0).
With `--summarize` enabled the property fails: the second run re-reads the
summarized artifact, summarizes its marker remainder again and rewrites the
artifact with a second nested summary block (see the counterexample). -/
theorem claim_C1_corrected (svcs : Services) (cfg : Config) (dirs listing : List String)
    (fs : FS) (hsum : cfg.summarize = false)
    (hns : ∀ f ∈ listing, '/' ∉ f.data) :
    (runMain svcs cfg dirs listing (runMain svcs cfg dirs listing fs).state.fs).state.fs =
      (runMain svcs cfg dirs listing fs).state.fs ∧
    (∀ fp outf lang : String, ∀ σ : FS, σ.existsP (outPathOf outf fp) = true →
      (transcribe_audio svcs.transcribe fp outf lang σ).calls = 0) := by
  refine ⟨?_, fun fp outf lang σ h => TA_calls_zero_of_exists svcs.transcribe fp outf lang σ h⟩
  by_cases hd : dirs.contains cfg.audio_folder = true
  · by_cases he : (listing.filter hasSupportedExt).isEmpty = true
    · rw [runMain_empty svcs cfg dirs listing fs hd he]
      dsimp only
      rw [runMain_empty svcs cfg dirs listing fs hd he]
    · have hne2 : (listing.filter hasSupportedExt).isEmpty = false := by simpa using he
      have hfl : ∀ x ∈ listing.filter hasSupportedExt, GoodName x := by
        intro x hx
        exact ⟨hns x (List.mem_filter.mp hx).1, (List.mem_filter.mp hx).2⟩
      obtain ⟨-, h2, -, h4⟩ := fold_invariants svcs cfg (listing.filter hasSupportedExt)
        ⟨fs, 0, 0, 0, [], []⟩ hfl
      rw [runMain_state_fold svcs cfg dirs listing fs hd hne2,
        runMain_state_fold svcs cfg dirs listing _ hd hne2]
      exact fold_noop svcs cfg _ _ hsum hfl (fun f hf2 => ⟨h2 f hf2, fun hcl => h4 hcl f hf2⟩)
  · have hdf : dirs.contains cfg.audio_folder = false := by simpa using hd
    rw [runMain_dir_missing svcs cfg dirs listing fs hdf]
    dsimp only
    rw [runMain_dir_missing svcs cfg dirs listing fs hdf]

theorem claim_C1_corrected_witness :
    (demoCfgNoSum.summarize = false ∧ ∀ f ∈ ["x.mp3"], '/' ∉ f.data) ∧
    ((runMain demoSvcs demoCfgNoSum ["a"] ["x.mp3"]
        (runMain demoSvcs demoCfgNoSum ["a"] ["x.mp3"] (FS.mk [])).state.fs).state.fs =
      (runMain demoSvcs demoCfgNoSum ["a"] ["x.mp3"] (FS.mk [])).state.fs ∧
    (∀ fp outf lang : String, ∀ σ : FS, σ.existsP (outPathOf outf fp) = true →
      (transcribe_audio demoSvcs.transcribe fp outf lang σ).calls = 0)) :=
  ⟨⟨by decide, by decide⟩,
    claim_C1_corrected demoSvcs demoCfgNoSum ["a"] ["x.mp3"] (FS.mk [])
      (by decide) (by decide)⟩

/-- With `--summarize` enabled, a second run over the same folders changes
the artifact (it nests a second summary block), refuting the claim's "every
flag combination" scope at a concrete input. -/
theorem claim_C1_cex :
    (runMain demoSvcs demoCfgSum ["a"] ["x.mp3"]
        (runMain demoSvcs demoCfgSum ["a"] ["x.mp3"] (FS.mk [])).state.fs).state.fs ≠
      (runMain demoSvcs demoCfgSum ["a"] ["x.mp3"] (FS.mk [])).state.fs := by
  decide

set_option maxHeartbeats 1600000 in
/-- Claim C2, corrected.  The layout the program writes is as the claim says
except for the marker strings, which are Indonesian, not English: the final
artifact is `"--- RINGKASAN ---\nS1\n\n--- TRANSKRIPSI LENGKAP ---\n"`
followed by the previously written plain artifact content. -/
theorem claim_C2_corrected (svcs : Services) (cfg : Config) (st : BatchState)
    (f T S1 : String) (segs : List Segment)
    (hsum : cfg.summarize = true) (hcl : cfg.clean_noise = false)
    (hmiss : st.fs.read (outPathOf cfg.output_folder (origPathC cfg f)) = none)
    (ht : svcs.transcribe (origPathC cfg f) cfg.language = some (T, segs))
    (hT : T ≠ "")
    (hS : svcs.summarizer (textChunks T 512) = some [S1]) :
    (stepFile svcs cfg st f).fs.read (outPathOf cfg.output_folder (origPathC cfg f)) =
      some (some ("--- RINGKASAN ---\n" ++ S1 ++ "\n\n--- TRANSKRIPSI LENGKAP ---\n" ++
        joinSep "\n" (segs.map formatSegment))) := by
  have hsm : summarize_text T svcs.summarizer 512 = S1 := by
    unfold summarize_text
    rw [hS]
    rfl
  have hc : (st.fs.write (outPathOf cfg.output_folder (origPathC cfg f))
      (joinSep "\n" (segs.map formatSegment))).read
        (outPathOf cfg.output_folder (origPathC cfg f)) =
      some (some (joinSep "\n" (segs.map formatSegment))) :=
    FS.read_write_self _ _ _
  rw [stepFile_noclean_eq hcl]
  rw [TA_fresh hmiss ht]
  rw [AT_success_sum (t := ⟨st.fs.write (outPathOf cfg.output_folder (origPathC cfg f))
        (joinSep "\n" (segs.map formatSegment)), 1, true,
      outPathOf cfg.output_folder (origPathC cfg f), T⟩)
      rfl hsum hT hc]
  dsimp only
  rw [FS.read_write_self, hsm]

theorem claim_C2_corrected_witness :
    (demoCfgSum.summarize = true ∧ demoCfgSum.clean_noise = false ∧
      (FS.mk []).read (outPathOf demoCfgSum.output_folder (origPathC demoCfgSum "x.mp3")) =
        none ∧
      demoSvcs.transcribe (origPathC demoCfgSum "x.mp3") demoCfgSum.language =
        some ("hello world", [demoSeg1, demoSeg2]) ∧
      ("hello world" : String) ≠ "" ∧
      demoSvcs.summarizer (textChunks "hello world" 512) = some ["S1"]) ∧
    (stepFile demoSvcs demoCfgSum ⟨FS.mk [], 0, 0, 0, [], []⟩ "x.mp3").fs.read
        (outPathOf demoCfgSum.output_folder (origPathC demoCfgSum "x.mp3")) =
      some (some ("--- RINGKASAN ---\n" ++ "S1" ++ "\n\n--- TRANSKRIPSI LENGKAP ---\n" ++
        joinSep "\n" ([demoSeg1, demoSeg2].map formatSegment))) :=
  ⟨⟨by decide, by decide, by decide, by decide, by decide, by decide⟩,
    claim_C2_corrected demoSvcs demoCfgSum ⟨FS.mk [], 0, 0, 0, [], []⟩
      "x.mp3" "hello world" "S1" [demoSeg1, demoSeg2]
      (by decide) (by decide) (by decide) (by decide) (by decide) (by decide)⟩

/-- The artifact actually written carries the Indonesian markers and differs
from the English-marker layout the claim states. -/
theorem claim_C2_cex :
    (stepFile demoSvcs demoCfgSum ⟨FS.mk [], 0, 0, 0, [], []⟩ "x.mp3").fs.read
        (outPathOf demoCfgSum.output_folder (origPathC demoCfgSum "x.mp3")) =
      some (some
        "--- RINGKASAN ---\nS1\n\n--- TRANSKRIPSI LENGKAP ---\n[0.00s - 1.50s] hello\n[1.50s - 3.00s] world") ∧
    ("--- RINGKASAN ---\nS1\n\n--- TRANSKRIPSI LENGKAP ---\n[0.00s - 1.50s] hello\n[1.50s - 3.00s] world" : String) ≠
      "--- SUMMARY ---\nS1\n\n--- FULL TRANSCRIPT ---\n[0.00s - 1.50s] hello\n[1.50s - 3.00s] world" :=
  ⟨by decide, by decide⟩

set_option maxHeartbeats 1600000 in
/-- Claim C3, corrected.  On a fresh transcription the summary is indeed
computed over the original unformatted text `T`.  But on the skip-if-exists
path the text handed to the summarizer is the artifact remainder after the
transcript marker — for a plain artifact that is the formatted timestamped
transcript, so the "never over the formatted version" part of the claim
fails (see the counterexample, where the summarizer receives the
timestamped lines while the speech service is never invoked). -/
theorem claim_C3_corrected (svcs : Services) (cfg : Config) (st : BatchState) (f : String)
    (hsum : cfg.summarize = true) (hcl : cfg.clean_noise = false) :
    (∀ T : String, ∀ segs : List Segment,
      st.fs.read (outPathOf cfg.output_folder (origPathC cfg f)) = none →
      svcs.transcribe (origPathC cfg f) cfg.language = some (T, segs) → T ≠ "" →
      (stepFile svcs cfg st f).summarizedTexts = st.summarizedTexts ++ [T]) ∧
    (∀ content : String,
      st.fs.read (outPathOf cfg.output_folder (origPathC cfg f)) = some (some content) →
      reuseText content ≠ "" →
      (stepFile svcs cfg st f).summarizedTexts =
        st.summarizedTexts ++ [reuseText content] ∧
      (stepFile svcs cfg st f).tCalls = st.tCalls) := by
  constructor
  · intro T segs hmiss ht hT
    have hc : (st.fs.write (outPathOf cfg.output_folder (origPathC cfg f))
        (joinSep "\n" (segs.map formatSegment))).read
          (outPathOf cfg.output_folder (origPathC cfg f)) =
        some (some (joinSep "\n" (segs.map formatSegment))) :=
      FS.read_write_self _ _ _
    rw [stepFile_noclean_eq hcl]
    rw [TA_fresh hmiss ht]
    rw [AT_success_sum (t := ⟨st.fs.write (outPathOf cfg.output_folder (origPathC cfg f))
          (joinSep "\n" (segs.map formatSegment)), 1, true,
        outPathOf cfg.output_folder (origPathC cfg f), T⟩)
        rfl hsum hT hc]
  · intro content hc hrt
    rw [stepFile_noclean_eq hcl]
    rw [TA_reuse hc]
    rw [AT_success_sum (t := ⟨st.fs, 0, true,
        outPathOf cfg.output_folder (origPathC cfg f), reuseText content⟩)
        rfl hsum hrt hc]
    exact ⟨rfl, rfl⟩

theorem claim_C3_corrected_witness :
    (demoCfgSum.summarize = true ∧ demoCfgSum.clean_noise = false ∧
      demoFsArtifact.read (outPathOf demoCfgSum.output_folder (origPathC demoCfgSum "x.mp3")) =
        some (some "[0.00s - 1.50s] hello\n[1.50s - 3.00s] world") ∧
      reuseText "[0.00s - 1.50s] hello\n[1.50s - 3.00s] world" ≠ "") ∧
    ((stepFile demoSvcs demoCfgSum ⟨demoFsArtifact, 0, 0, 0, [], []⟩ "x.mp3").summarizedTexts =
        [] ++ [reuseText "[0.00s - 1.50s] hello\n[1.50s - 3.00s] world"] ∧
      (stepFile demoSvcs demoCfgSum ⟨demoFsArtifact, 0, 0, 0, [], []⟩ "x.mp3").tCalls = 0) :=
  ⟨⟨by decide, by decide, by decide, by decide⟩,
    (claim_C3_corrected demoSvcs demoCfgSum ⟨demoFsArtifact, 0, 0, 0, [], []⟩ "x.mp3"
        (by decide) (by decide)).2
      "[0.00s - 1.50s] hello\n[1.50s - 3.00s] world" (by decide) (by decide)⟩

/-- On the skip path the summarizer receives the formatted timestamped
transcript stored in the artifact (the original unformatted text was
`"hello world"`), with the speech service never invoked. -/
theorem claim_C3_cex :
    (stepFile demoSvcs demoCfgSum ⟨demoFsArtifact, 0, 0, 0, [], []⟩ "x.mp3").summarizedTexts =
      ["[0.00s - 1.50s] hello\n[1.50s - 3.00s] world"] ∧
    (stepFile demoSvcs demoCfgSum ⟨demoFsArtifact, 0, 0, 0, [], []⟩ "x.mp3").tCalls = 0 ∧
    ("[0.00s - 1.50s] hello\n[1.50s - 3.00s] world" : String) ≠ "hello world" :=
  ⟨by decide, by decide, by decide⟩

/-- Claim C4, corrected.  When the input folder is missing the driver does
report and stop with no file processed and the filesystem untouched — but
the speech-recognition model, and the summarizer when requested, are loaded
BEFORE the folder validation (lines 103 and 111 precede the `isdir` check on
line 114), so "no partial work attempted" fails for the model loads and the
claimed validate-before-load order is reversed. -/
theorem claim_C4_corrected (svcs : Services) (cfg : Config) (dirs listing : List String)
    (fs : FS) (h : dirs.contains cfg.audio_folder = false) :
    runMain svcs cfg dirs listing fs =
      ⟨⟨fs, 0, 0, 0, [], []⟩,
        ([MainEvent.loadWhisperModel] ++
          (if cfg.summarize then [MainEvent.loadSummarizer] else [])) ++
          [MainEvent.reportMissingFolder]⟩ :=
  runMain_dir_missing svcs cfg dirs listing fs h

theorem claim_C4_corrected_witness :
    (([] : List String).contains demoCfgSum.audio_folder = false) ∧
    runMain demoSvcs demoCfgSum [] ["x.mp3"] (FS.mk []) =
      ⟨⟨FS.mk [], 0, 0, 0, [], []⟩,
        ([MainEvent.loadWhisperModel] ++
          (if demoCfgSum.summarize then [MainEvent.loadSummarizer] else [])) ++
          [MainEvent.reportMissingFolder]⟩ :=
  ⟨by decide, claim_C4_corrected demoSvcs demoCfgSum [] ["x.mp3"] (FS.mk []) (by decide)⟩

/-- With a missing input folder, both model-load events occur and precede
the missing-folder report, refuting the claimed validate-before-load order
at a concrete input. -/
theorem claim_C4_cex :
    (runMain demoSvcs demoCfgSum [] ["x.mp3"] (FS.mk [])).events =
      [MainEvent.loadWhisperModel, MainEvent.loadSummarizer,
        MainEvent.reportMissingFolder] := by
  decide

/-- Claim C5, confirmed.  If the speech service raises on the file (from
either its original or its cleaned path) and its artifact does not exist
beforehand, the step reports failure: the success counter is unchanged, the
failure counter is incremented by one, and no artifact is created for the
file (both candidate artifact paths still do not exist). -/
theorem claim_C5 (svcs : Services) (cfg : Config) (st : BatchState) (f : String)
    (hf : GoodName f)
    (hso : svcs.transcribe (origPathC cfg f) cfg.language = none)
    (hsc : svcs.transcribe (cleanedPathC cfg f) cfg.language = none)
    (h3 : st.fs.existsP (aOrigP cfg f) = false)
    (h4 : st.fs.existsP (aCleanP cfg f) = false) :
    (stepFile svcs cfg st f).success_count = st.success_count ∧
    (stepFile svcs cfg st f).failure_count = st.failure_count + 1 ∧
    (stepFile svcs cfg st f).fs.read (aOrigP cfg f) = none ∧
    (stepFile svcs cfg st f).fs.read (aCleanP cfg f) = none := by
  have hfne := ne_empty_of_supported hf.2
  have hno : aOrigP cfg f ≠ cleanedPathC cfg f :=
    fun h => cleaned_ne_txtpath cfg f (stripCleanedSuffix (stemStr f)) h.symm
  have hnc : aCleanP cfg f ≠ cleanedPathC cfg f :=
    fun h => cleaned_ne_txtpath cfg f (stemStr f) h.symm
  by_cases hcl : cfg.clean_noise = true
  · have hd1o : (denoisePhase svcs cfg f st.fs).1.read (aOrigP cfg f) = none := by
      rw [DP_read_pres svcs cfg f st.fs hno]
      exact read_none_of_existsP_false h3
    have hd1c : (denoisePhase svcs cfg f st.fs).1.read (aCleanP cfg f) = none := by
      rw [DP_read_pres svcs cfg f st.fs hnc]
      exact read_none_of_existsP_false h4
    have hta : transcribe_audio svcs.transcribe (denoisePhase svcs cfg f st.fs).2
        cfg.output_folder cfg.language (denoisePhase svcs cfg f st.fs).1 =
        ⟨(denoisePhase svcs cfg f st.fs).1, 1, false,
          outPathOf cfg.output_folder (denoisePhase svcs cfg f st.fs).2, ""⟩ := by
      rcases DP_path_cases svcs cfg f st.fs with hp | hp
      · rw [hp]
        apply TA_svc_fail
        · rw [outPath_cleaned cfg f hf.1]
          exact hd1c
        · exact hsc
      · rw [hp]
        apply TA_svc_fail
        · rw [outPath_orig cfg f hf.1 hfne]
          exact hd1o
        · exact hso
    rw [stepFile_clean_eq hcl, hta,
      AT_fail (t := ⟨(denoisePhase svcs cfg f st.fs).1, 1, false,
        outPathOf cfg.output_folder (denoisePhase svcs cfg f st.fs).2, ""⟩) rfl]
    exact ⟨rfl, rfl, hd1o, hd1c⟩
  · have hclf : cfg.clean_noise = false := by simpa using hcl
    have h1 : st.fs.read (outPathOf cfg.output_folder (origPathC cfg f)) = none := by
      rw [outPath_orig cfg f hf.1 hfne]
      exact read_none_of_existsP_false h3
    rw [stepFile_noclean_eq hclf, TA_svc_fail h1 hso,
      AT_fail (t := ⟨st.fs, 1, false,
        outPathOf cfg.output_folder (origPathC cfg f), ""⟩) rfl]
    exact ⟨rfl, rfl, read_none_of_existsP_false h3, read_none_of_existsP_false h4⟩

theorem claim_C5_witness :
    (GoodName "y.mp3" ∧
      demoSvcs.transcribe (origPathC demoCfgNoSum "y.mp3") demoCfgNoSum.language = none ∧
      demoSvcs.transcribe (cleanedPathC demoCfgNoSum "y.mp3") demoCfgNoSum.language = none ∧
      (FS.mk []).existsP (aOrigP demoCfgNoSum "y.mp3") = false ∧
      (FS.mk []).existsP (aCleanP demoCfgNoSum "y.mp3") = false) ∧
    ((stepFile demoSvcs demoCfgNoSum ⟨FS.mk [], 0, 0, 0, [], []⟩ "y.mp3").success_count = 0 ∧
      (stepFile demoSvcs demoCfgNoSum ⟨FS.mk [], 0, 0, 0, [], []⟩ "y.mp3").failure_count = 0 + 1 ∧
      (stepFile demoSvcs demoCfgNoSum ⟨FS.mk [], 0, 0, 0, [], []⟩ "y.mp3").fs.read
        (aOrigP demoCfgNoSum "y.mp3") = none ∧
      (stepFile demoSvcs demoCfgNoSum ⟨FS.mk [], 0, 0, 0, [], []⟩ "y.mp3").fs.read
        (aCleanP demoCfgNoSum "y.mp3") = none) :=
  ⟨⟨⟨by decide, by decide⟩, by decide, by decide, by decide, by decide⟩,
    claim_C5 demoSvcs demoCfgNoSum ⟨FS.mk [], 0, 0, 0, [], []⟩ "y.mp3"
      ⟨by decide, by decide⟩ (by decide) (by decide) (by decide) (by decide)⟩

/-- Claim C6, confirmed.  For every text `T` and chunk bound `L > 0` the
chunking of lines 30-31 preserves the whitespace-split word sequence
(rejoining all chunks with single spaces and resplitting yields exactly the
words of `T`), every chunk holds at most `L` words, and empty text yields no
chunks. -/
theorem claim_C6 (T : String) (L : Nat) (hL : 0 < L) :
    pySplit (joinSep " " (textChunks T L)) = pySplit T ∧
    (∀ c ∈ textChunks T L, (pySplit c).length ≤ L) ∧
    (T = "" → textChunks T L = []) := by
  have hn : L ≠ 0 := Nat.pos_iff_ne_zero.mp hL
  have hgood := pySplit_good T
  have hmem := chunkGroups_mem L (pySplit T).length (pySplit T) le_rfl
  have hgne : ∀ g ∈ chunkGroups L (pySplit T), g ≠ [] := fun g hg => (hmem g hg).2.1
  refine ⟨?_, ?_, ?_⟩
  · unfold textChunks
    rw [joinSep_nested _ hgne,
      chunkGroups_flatten L hn (pySplit T).length (pySplit T) le_rfl]
    exact pySplit_joinSep (pySplit T) hgood
  · intro c hc
    unfold textChunks at hc
    rcases List.mem_map.mp hc with ⟨g, hg, rfl⟩
    have hgw : ∀ w ∈ g, w.data ≠ [] ∧ ∀ ch ∈ w.data, ch.isWhitespace = false :=
      fun w hw => hgood w ((hmem g hg).2.2 w hw)
    rw [pySplit_joinSep g hgw]
    exact (hmem g hg).1
  · intro h0
    subst h0
    rfl

theorem claim_C6_witness :
    0 < 1 ∧
    (pySplit (joinSep " " (textChunks "hello world" 1)) = pySplit "hello world" ∧
      (∀ c ∈ textChunks "hello world" 1, (pySplit c).length ≤ 1) ∧
      ("hello world" = "" → textChunks "hello world" 1 = [])) :=
  ⟨by decide, claim_C6 "hello world" 1 (by decide)⟩

/-- Claim C7, confirmed.  With noise-cleaning enabled, when the cleaned
intermediate does not already exist and the denoise step raises (missing or
unreadable input, or the denoise service failing), the per-file step still
runs transcription, entering it with the original input path, and the
original input file is left unmodified. -/
theorem claim_C7 (svcs : Services) (cfg : Config) (st : BatchState) (f : String)
    (hcl : cfg.clean_noise = true) (hf : GoodName f)
    (hne : st.fs.existsP (cleanedPathC cfg f) = false)
    (hdr : denoiseRaises svcs cfg f st.fs) :
    (stepFile svcs cfg st f).transcribedPaths =
      st.transcribedPaths ++ [origPathC cfg f] ∧
    (stepFile svcs cfg st f).fs.read (origPathC cfg f) = st.fs.read (origPathC cfg f) := by
  constructor
  · rw [stepFile_clean_eq hcl, DP_fail hne hdr]
    exact AT_paths svcs cfg st _ _
  · exact stepFile_orig_read_pres svcs cfg st hf hf.1

theorem claim_C7_witness :
    (demoCfgClean.clean_noise = true ∧ GoodName "x.mp3" ∧
      (FS.mk []).existsP (cleanedPathC demoCfgClean "x.mp3") = false ∧
      denoiseRaises demoSvcs demoCfgClean "x.mp3" (FS.mk [])) ∧
    ((stepFile demoSvcs demoCfgClean ⟨FS.mk [], 0, 0, 0, [], []⟩ "x.mp3").transcribedPaths =
        [] ++ [origPathC demoCfgClean "x.mp3"] ∧
      (stepFile demoSvcs demoCfgClean ⟨FS.mk [], 0, 0, 0, [], []⟩ "x.mp3").fs.read
        (origPathC demoCfgClean "x.mp3") = (FS.mk []).read (origPathC demoCfgClean "x.mp3")) :=
  ⟨⟨by decide, ⟨by decide, by decide⟩, by decide, trivial⟩,
    claim_C7 demoSvcs demoCfgClean ⟨FS.mk [], 0, 0, 0, [], []⟩ "x.mp3"
      (by decide) ⟨by decide, by decide⟩ (by decide) trivial⟩

/-- Claim C8, confirmed.  The transcription step is a total function of its
inputs in this model (its Python body is one `try/except` returning a
triple), and in the case the claim singles out — the artifact exists but
reading it raises — it returns failure with the computed output path and
empty text, without invoking the speech-recognition service. -/
theorem claim_C8 (svcT : String → String → Option (String × List Segment))
    (fp outf lang : String) (fs : FS)
    (h : fs.read (outPathOf outf fp) = some none) :
    transcribe_audio svcT fp outf lang fs =
      ⟨fs, 0, false, outPathOf outf fp, ""⟩ :=
  TA_unreadable h

theorem claim_C8_witness :
    demoFsRaise.read (outPathOf "o" "a/x.mp3") = some none ∧
    transcribe_audio demoSvcs.transcribe "a/x.mp3" "o" "id" demoFsRaise =
      ⟨demoFsRaise, 0, false, outPathOf "o" "a/x.mp3", ""⟩ :=
  ⟨by decide, claim_C8 demoSvcs.transcribe "a/x.mp3" "o" "id" demoFsRaise (by decide)⟩

/-- Claim C9, corrected.  When the artifact exists and is readable the step
returns success without invoking the model, and the reused text is the
whitespace-stripped LAST PIECE of a left-to-right, non-overlapping scan for
the marker (Python `split` semantics): the content decomposes as `q ++ p`
with the returned piece `p` containing no marker occurrence and `q` (when
nonempty) ending in a marker.  That differs from the claim's "everything
after the LAST occurrence of the marker" exactly when marker occurrences
overlap (see the counterexample).  The skip part of the claim is right: a
successful step whose text is empty leaves the artifact untouched and hands
nothing to the summarizer. -/
theorem claim_C9_corrected (svcT : String → String → Option (String × List Segment))
    (fp outf lang content : String) (fs : FS)
    (h : fs.read (outPathOf outf fp) = some (some content)) :
    (transcribe_audio svcT fp outf lang fs).success = true ∧
    (transcribe_audio svcT fp outf lang fs).calls = 0 ∧
    (transcribe_audio svcT fp outf lang fs).text =
      trimStr ⟨lastOf (splitSepCh transMarker.data content.data)⟩ ∧
    (∃ q, content.data = q ++ lastOf (splitSepCh transMarker.data content.data) ∧
      ¬ occursSeq transMarker.data (lastOf (splitSepCh transMarker.data content.data)) ∧
      (q = [] ∨ transMarker.data <:+ q)) ∧
    (∀ (svcs : Services) (cfg : Config) (st : BatchState) (p : String) (t : TAOut),
      t.success = true → t.text = "" →
      (afterTranscribe svcs cfg st p t).fs = t.fs ∧
      (afterTranscribe svcs cfg st p t).summarizedTexts = st.summarizedTexts) := by
  refine ⟨?_, ?_, ?_, ?_, ?_⟩
  · rw [TA_reuse h]
  · rw [TA_reuse h]
  · rw [TA_reuse h]
    rfl
  · exact splitSep_last_spec transMarker.data (by decide) content.data
  · intro svcs cfg st p t ht h0
    rw [AT_success_nosum ht (fun hcon => hcon.2 h0)]
    exact ⟨rfl, rfl⟩

theorem claim_C9_corrected_witness :
    demoFsOverlap.read (outPathOf "o" "a/x.mp3") = some (some overlapContent) ∧
    ((transcribe_audio demoSvcs.transcribe "a/x.mp3" "o" "id" demoFsOverlap).success = true ∧
      (transcribe_audio demoSvcs.transcribe "a/x.mp3" "o" "id" demoFsOverlap).calls = 0 ∧
      (transcribe_audio demoSvcs.transcribe "a/x.mp3" "o" "id" demoFsOverlap).text =
        trimStr ⟨lastOf (splitSepCh transMarker.data overlapContent.data)⟩ ∧
      (∃ q, overlapContent.data =
          q ++ lastOf (splitSepCh transMarker.data overlapContent.data) ∧
        ¬ occursSeq transMarker.data
          (lastOf (splitSepCh transMarker.data overlapContent.data)) ∧
        (q = [] ∨ transMarker.data <:+ q)) ∧
      (∀ (svcs : Services) (cfg : Config) (st : BatchState) (p : String) (t : TAOut),
        t.success = true → t.text = "" →
        (afterTranscribe svcs cfg st p t).fs = t.fs ∧
        (afterTranscribe svcs cfg st p t).summarizedTexts = st.summarizedTexts)) :=
  ⟨by decide,
    claim_C9_corrected demoSvcs.transcribe "a/x.mp3" "o" "id" overlapContent demoFsOverlap
      (by decide)⟩

/-- On the self-overlapping content the spec's literal reading (everything
after the last occurrence of the marker) strips to the empty string, while
the program's scan returns the nonempty `"TRANSKRIPSI LENGKAP ---"`; the two
readings disagree at this input. -/
theorem claim_C9_cex :
    trimStr ⟨specAfterLastOccurrence transMarker.data overlapContent.data⟩ = "" ∧
    (transcribe_audio demoSvcs.transcribe "a/x.mp3" "o" "id" demoFsOverlap).text =
      "TRANSKRIPSI LENGKAP ---" ∧
    ("TRANSKRIPSI LENGKAP ---" : String) ≠ "" :=
  ⟨by decide, by decide, by decide⟩

/-- Claim C10, confirmed.  Each per-file step increments exactly one of the
two counters by one (so both are monotone over the run), and a full run ends
with `success_count + failure_count` equal to the number of listed files
that pass the extension filter. -/
theorem claim_C10 (svcs : Services) (cfg : Config) (dirs listing : List String) (fs : FS)
    (hd : dirs.contains cfg.audio_folder = true) :
    (∀ (st : BatchState) (f : String),
      ((stepFile svcs cfg st f).success_count = st.success_count + 1 ∧
        (stepFile svcs cfg st f).failure_count = st.failure_count) ∨
      ((stepFile svcs cfg st f).success_count = st.success_count ∧
        (stepFile svcs cfg st f).failure_count = st.failure_count + 1)) ∧
    (runMain svcs cfg dirs listing fs).state.success_count +
        (runMain svcs cfg dirs listing fs).state.failure_count =
      (listing.filter hasSupportedExt).length := by
  refine ⟨fun st f => stepFile_counts svcs cfg st f, ?_⟩
  by_cases he : (listing.filter hasSupportedExt).isEmpty = true
  · rw [runMain_empty svcs cfg dirs listing fs hd he]
    have h0 : listing.filter hasSupportedExt = [] := by simpa using he
    rw [h0]
    rfl
  · rw [runMain_state_fold svcs cfg dirs listing fs hd (by simpa using he), fold_counts]
    simp

theorem claim_C10_witness :
    (["a"] : List String).contains demoCfgNoSum.audio_folder = true ∧
    ((∀ (st : BatchState) (f : String),
      ((stepFile demoSvcs demoCfgNoSum st f).success_count = st.success_count + 1 ∧
        (stepFile demoSvcs demoCfgNoSum st f).failure_count = st.failure_count) ∨
      ((stepFile demoSvcs demoCfgNoSum st f).success_count = st.success_count ∧
        (stepFile demoSvcs demoCfgNoSum st f).failure_count = st.failure_count + 1)) ∧
    (runMain demoSvcs demoCfgNoSum ["a"] ["x.mp3", "notes.txt"] (FS.mk [])).state.success_count +
        (runMain demoSvcs demoCfgNoSum ["a"] ["x.mp3", "notes.txt"] (FS.mk [])).state.failure_count =
      (["x.mp3", "notes.txt"].filter hasSupportedExt).length) :=
  ⟨by decide,
    claim_C10 demoSvcs demoCfgNoSum ["a"] ["x.mp3", "notes.txt"] (FS.mk []) (by decide)⟩
